import Mathlib

/-!
Verification of the ex_monty native bridge (src/native/ex_monty/src), a Rust
NIF layer translating between Erlang terms and the Monty interpreter's
canonical value model.  The host (BEAM) term universe and the external
collaborators (rustler term API, the monty crate's `MontyObject` enum and
engine error-tag set) are modelled at their interfaces; every function below
is a shallow embedding of the correspondingly named Rust function.

Modelling conventions for the host side:
* An Erlang binary is represented by `BinPayload`: `.str s` stands for a
  binary whose byte content is valid UTF-8 and decodes (via rustler's
  `decode::<String>`) to `s`; `.raw bs` stands for a binary with byte
  content `bs` that does not String-decode.  Rust `String` values encode to
  `.str` binaries; raw `Vec<u8>` buffers encode to `.raw` binaries.
* An Erlang map is represented by its sequence of key/value entries in the
  order the bridge issued `map_put` calls, with `map_put` overwriting an
  existing key in place (`mapPut` below).  `map_get` is key lookup and a
  `MapIterator` yields the entries in sequence order.
* Floats are carried as an opaque bit pattern (`Nat`): the bridge passes
  f64 payloads through unchanged in both directions.
* Machine integers are `Int` with explicit range tests where the code
  dispatches on i64/i32 decodability.
-/

/-- Content of an Erlang binary: a valid-UTF-8 binary identified with its
decoded string, or a raw byte sequence that does not String-decode. -/
inductive BinPayload where
  | str (s : String)
  | raw (bs : List Nat)

/-- The host's dynamic value representation (Erlang term), restricted to the
shapes the bridge produces or inspects.  `ref` stands for an opaque resource
reference or any other term kind the value codec cannot decode. -/
inductive ErlTerm where
  | atom (name : String)
  | int (n : Int)
  | float (bits : Nat)
  | binary (b : BinPayload)
  | tuple (elems : List ErlTerm)
  | list (elems : List ErlTerm)
  | map (entries : List (ErlTerm × ErlTerm))
  | ref (id : Nat)

/-- Byte content of a binary, as read by rustler's `decode::<Binary>` (which
succeeds on every binary).  For a UTF-8 binary this is the encoding of its
string. -/
def BinPayload.toBytes : BinPayload → List Nat
  | .str s => (s.data.flatMap (fun c => String.utf8EncodeChar c)).map (fun b => b.toNat)
  | .raw bs => bs

/-- Structural equality on binary payloads. -/
def BinPayload.beq : BinPayload → BinPayload → Bool
  | .str a, .str b => a == b
  | .raw a, .raw b => a == b
  | _, _ => false

mutual
/-- Structural equality of Erlang terms (the term equality `map_get` and
`map_put` compare keys with). -/
def ErlTerm.beq : ErlTerm → ErlTerm → Bool
  | .atom a, .atom b => a == b
  | .int a, .int b => a == b
  | .float a, .float b => a == b
  | .binary a, .binary b => a.beq b
  | .tuple a, .tuple b => ErlTerm.beqList a b
  | .list a, .list b => ErlTerm.beqList a b
  | .map a, .map b => ErlTerm.beqPairs a b
  | .ref a, .ref b => a == b
  | _, _ => false
termination_by t => sizeOf t

/-- Elementwise equality of term lists. -/
def ErlTerm.beqList : List ErlTerm → List ErlTerm → Bool
  | [], [] => true
  | x :: xs, y :: ys => x.beq y && ErlTerm.beqList xs ys
  | _, _ => false
termination_by l => sizeOf l

/-- Elementwise equality of term entry lists. -/
def ErlTerm.beqPairs : List (ErlTerm × ErlTerm) → List (ErlTerm × ErlTerm) → Bool
  | [], [] => true
  | (k, v) :: xs, (k', v') :: ys => k.beq k' && v.beq v' && ErlTerm.beqPairs xs ys
  | _, _ => false
termination_by l => sizeOf l
end

/-- Model of `map.map_put(key, val)`: overwrite an existing key in place,
otherwise append the new entry. -/
def mapPut (entries : List (ErlTerm × ErlTerm)) (k v : ErlTerm) :
    List (ErlTerm × ErlTerm) :=
  if entries.any (fun p => p.1.beq k) then
    entries.map (fun p => if p.1.beq k then (p.1, v) else p)
  else
    entries ++ [(k, v)]

/-- Model of `term.map_get(key)`: value of the first entry whose key equals
the requested key. -/
def mapGet : List (ErlTerm × ErlTerm) → ErlTerm → Option ErlTerm
  | [], _ => Option.none
  | (k', v) :: rest, k => if k'.beq k then some v else mapGet rest k

/-- Build a map term by `map_put`-ing the given entries onto `map_new`, in
order; this is how the bridge constructs every map it emits. -/
def buildMap (entries : List (ErlTerm × ErlTerm)) : List (ErlTerm × ErlTerm) :=
  entries.foldl (fun acc p => mapPut acc p.1 p.2) []

/-- The interpreter's canonical value model: the `monty::MontyObject` enum,
with fields restricted to what the bridge reads or builds.  Big integers are
`Int` (arbitrary precision), floats are opaque bit patterns, exception and
type tags are carried as their `to_string` rendering. -/
inductive MontyObject where
  | none
  | bool (b : Bool)
  | int (i : Int)
  | bigInt (i : Int)
  | float (bits : Nat)
  | str (s : String)
  | bytes (bs : List Nat)
  | ellipsis
  | list (items : List MontyObject)
  | tuple (items : List MontyObject)
  | dict (pairs : List (MontyObject × MontyObject))
  | set (items : List MontyObject)
  | frozenSet (items : List MontyObject)
  | path (p : String)
  | namedTuple (typeName : String) (fieldNames : List String) (values : List MontyObject)
  | dataclass (name : String) (fieldNames : List String)
      (attrs : List (MontyObject × MontyObject)) (frozen : Bool)
  | exception (excType : String) (arg : Option String)
  | type (name : String)
  | builtinFunction (name : String)
  | repr (s : String)
  | cycle (id : Nat) (desc : String)

-- ── Case conversion helpers (types.rs snake_case / pascal_case) ──────────────

/-- Character-list core of `snake_case`: the flag records whether we are past
the first character (`i > 0` in the Rust loop). -/
def snakeCaseChars : Bool → List Char → List Char
  | _, [] => []
  | notFirst, c :: cs =>
    if c.isUpper then
      (if notFirst then ['_'] else []) ++ c.toLower :: snakeCaseChars true cs
    else
      c :: snakeCaseChars true cs

/-- Model of `snake_case`: insert `_` before every non-leading uppercase
letter and lowercase it (ASCII, as in the Rust code's `to_ascii_lowercase`). -/
def snakeCase (s : String) : String := ⟨snakeCaseChars false s.data⟩

/-- Split a character list at `_` (model of Rust's `split('_')`). -/
def splitUnderscore : List Char → List (List Char)
  | [] => [[]]
  | c :: cs =>
    let rest := splitUnderscore cs
    if c = '_' then [] :: rest
    else
      match rest with
      | [] => [[c]]
      | w :: ws => (c :: w) :: ws

/-- Uppercase the first character of a word (Rust `to_uppercase` on the
leading char; ASCII model). -/
def capitalizeWord : List Char → List Char
  | [] => []
  | c :: cs => c.toUpper :: cs

/-- Model of `pascal_case`: split on `_`, capitalize each word, concatenate. -/
def pascalCase (s : String) : String :=
  ⟨((splitUnderscore s.data).map capitalizeWord).flatten⟩

/-- Model of `normalize_namedtuple_type_name`: keep names that already
contain an uppercase letter, otherwise pascal-case them. -/
def normalizeNamedtupleTypeName (s : String) : String :=
  if s.data.any Char.isUpper then s else pascalCase s

-- ── Encoding: MontyObject → Erlang term (types.rs encode_monty_object) ───────

/-- Placeholder value stored with every MapSet member (`vec![]` encodes to the
empty list term). -/
def mapsetPlaceholder : ErlTerm := .list []

mutual
/-- Model of `encode_monty_object`: total translation of a canonical value
into a host term. -/
def encodeMontyObject : MontyObject → ErlTerm
  | .none => .atom "nil"
  | .bool b => .atom (if b then "true" else "false")
  | .int i => .int i
  | .bigInt i => .int i
  | .float bits => .float bits
  | .str s => .binary (.str s)
  | .bytes bs => .tuple [.atom "bytes", .binary (.raw bs)]
  | .ellipsis => .atom "ellipsis"
  | .list items => .list (encodeObjList items)
  | .tuple items => .tuple (encodeObjList items)
  | .dict pairs => .map (buildMap (encodeObjPairs pairs))
  | .set items => encodeMapset (encodeObjList items)
  | .frozenSet items => encodeMapset (encodeObjList items)
  | .path p => .tuple [.atom "path", .binary (.str p)]
  | .namedTuple typeName fieldNames values =>
    .tuple [.atom "named_tuple", .binary (.str typeName),
      .list (encodeNamedTupleFields fieldNames values)]
  | .dataclass name fieldNames attrs frozen =>
    .map (buildMap
      [(.atom "__struct__", .atom "Elixir.ExMonty.Dataclass"),
       (.atom "name", .binary (.str name)),
       (.atom "fields", .map (buildMap (encodeDataclassFields fieldNames (stringAttrs attrs)))),
       (.atom "frozen", .atom (if frozen then "true" else "false"))])
  | .exception excType arg =>
    .map (buildMap
      [(.atom "__struct__", .atom "Elixir.ExMonty.Exception"),
       (.atom "type", .atom (snakeCase excType)),
       (.atom "message", match arg with
         | some msg => .binary (.str msg)
         | Option.none => .atom "nil"),
       (.atom "traceback", .list [])])
  | .type name => .atom (snakeCase name)
  | .builtinFunction _ => .atom "builtin_function"
  | .repr s => .tuple [.atom "repr", .binary (.str s)]
  | .cycle _ desc => .tuple [.atom "cycle", .binary (.str desc)]
termination_by o => sizeOf o

/-- Encode each element of a list of canonical values. -/
def encodeObjList : List MontyObject → List ErlTerm
  | [] => []
  | x :: xs => encodeMontyObject x :: encodeObjList xs
termination_by l => sizeOf l

/-- Encode each key/value pair of a dictionary. -/
def encodeObjPairs : List (MontyObject × MontyObject) → List (ErlTerm × ErlTerm)
  | [] => []
  | (k, v) :: rest => (encodeMontyObject k, encodeMontyObject v) :: encodeObjPairs rest
termination_by l => sizeOf l

/-- Model of `encode_mapset` applied to already-encoded members: an
`Elixir.MapSet` struct whose inner map holds each member with a placeholder
value. -/
def encodeMapset (members : List ErlTerm) : ErlTerm :=
  .map (buildMap
    [(.atom "__struct__", .atom "Elixir.MapSet"),
     (.atom "map", .map (buildMap (members.map (fun m => (m, mapsetPlaceholder)))))])

/-- Named-tuple field encoding: `field_names.iter().zip(values)` mapped to
`{name, value}` pairs (zip truncates at the shorter list). -/
def encodeNamedTupleFields : List String → List MontyObject → List ErlTerm
  | n :: ns, v :: vs =>
    .tuple [.binary (.str n), encodeMontyObject v] :: encodeNamedTupleFields ns vs
  | _, _ => []
termination_by _ l => sizeOf l

/-- Dataclass attrs whose keys are strings, collected in iteration order with
later duplicates overwriting earlier ones (the `HashMap` collect). -/
def stringAttrs : List (MontyObject × MontyObject) → List (String × ErlTerm)
  | [] => []
  | (k, v) :: rest =>
    match k with
    | .str s =>
      let restMap := stringAttrs rest
      if (restMap.lookup s).isSome then restMap else (s, encodeMontyObject v) :: restMap
    | _ => stringAttrs rest
termination_by l => sizeOf l

/-- Dataclass `fields` map entries: declared field order, keeping only fields
present in the attribute map. -/
def encodeDataclassFields : List String → List (String × ErlTerm) → List (ErlTerm × ErlTerm)
  | [], _ => []
  | n :: ns, attrMap =>
    match attrMap.lookup n with
    | some t => (.binary (.str n), t) :: encodeDataclassFields ns attrMap
    | Option.none => encodeDataclassFields ns attrMap
termination_by l _ => sizeOf l
end

-- ── Decoding: Erlang term → MontyObject (types.rs decode_monty_object) ───────

/-- Rust `term.decode::<i64>()` succeeds exactly on integers in i64 range. -/
def fitsI64 (n : Int) : Bool := decide (-(2 ^ 63) ≤ n) && decide (n < 2 ^ 63)

/-- Rust `term.decode::<i32>()` succeeds exactly on integers in i32 range. -/
def fitsI32 (n : Int) : Bool := decide (-(2 ^ 31) ≤ n) && decide (n < 2 ^ 31)

/-- Big-endian magnitude bytes to a natural number
(`BigUint::from_bytes_be`). -/
def bytesBEtoNat (bs : List Nat) : Nat := bs.foldl (fun acc b => acc * 256 + b) 0

/-- Model of `BigInt::from_bytes_be(num_sign, bytes)` with the sign decoded
as in the `__bigint__` branch: `-1 ↦ Minus`, `0 ↦ NoSign` (which num-bigint
normalizes to zero), anything else `↦ Plus`. -/
def bigintFromSignBytes (sgn : Int) (bs : List Nat) : Int :=
  if sgn = -1 then -(bytesBEtoNat bs : Int)
  else if sgn = 0 then 0
  else (bytesBEtoNat bs : Int)

/-- Field-name or type-name extraction shared by `decode_named_tuple`: an
atom yields its name, a UTF-8 binary its string, anything else `BadArg`. -/
def nameTermStr : ErlTerm → Option String
  | .atom s => some s
  | .binary (.str s) => some s
  | _ => none

/-- The fixed canonical field order of the `StatResult` built-in named tuple
(`STAT_RESULT_FIELD_ORDER`). -/
def statResultFieldOrder : List String :=
  ["st_mode", "st_ino", "st_dev", "st_nlink", "st_uid", "st_gid", "st_size",
   "st_atime", "st_mtime", "st_ctime"]

/-- Lexicographic (byte/code-point) order on strings, the `Ord` Rust's
`BTreeSet<&str>` and `Vec::sort` use. -/
def charListLt : List Char → List Char → Bool
  | [], [] => false
  | [], _ :: _ => true
  | _ :: _, [] => false
  | a :: as, b :: bs =>
    if a.toNat < b.toNat then true
    else if a.toNat = b.toNat then charListLt as bs
    else false

/-- Boolean string comparison used to model sorted name collections. -/
def strLtB (a b : String) : Bool := charListLt a.data b.data

/-- Insert a name into a sorted duplicate-free name list (model of
`BTreeSet<&str>::insert`). -/
def sortedInsert (n : String) : List String → List String
  | [] => [n]
  | m :: rest =>
    if strLtB n m then n :: m :: rest
    else if n = m then m :: rest
    else m :: sortedInsert n rest

/-- Collect names into sorted order (models both a `BTreeSet` accumulation
and collect-then-`sort()` over a map's unique keys). -/
def sortNames (l : List String) : List String :=
  l.foldl (fun acc n => sortedInsert n acc) []

/-- Remove the entry with the given key from a name→value mapping, returning
its value and the rest (model of `HashMap::remove`). -/
def lookupRemove (n : String) : List (String × MontyObject) →
    Option (MontyObject × List (String × MontyObject))
  | [] => Option.none
  | (k, v) :: rest =>
    if k = n then some (v, rest)
    else (lookupRemove n rest).map (fun r => (r.1, (k, v) :: r.2))

/-- The `StatResult` arm of `order_named_tuple_fields`: remove each canonical
field in order (missing field → `BadArg`), then require the mapping to be
exhausted (extra field → `BadArg`). -/
def statTakeFields : List String → List (String × MontyObject) →
    Option (List String × List MontyObject)
  | [], m => if m.isEmpty then some ([], []) else Option.none
  | n :: rest, m =>
    match lookupRemove n m with
    | some r => (statTakeFields rest r.2).map (fun nv => (n :: nv.1, r.1 :: nv.2))
    | Option.none => Option.none

/-- Model of `order_named_tuple_fields`: `StatResult` gets the fixed
canonical order with an exact-field-set requirement; every other type name
gets its field names sorted lexicographically (keys are unique, so the
`remove(name).unwrap()` per sorted key is total and equals lookup). -/
def orderNamedTupleFields (typeName : String) (byName : List (String × MontyObject)) :
    Option (List String × List MontyObject) :=
  if typeName = "StatResult" then statTakeFields statResultFieldOrder byName
  else
    let names := sortNames (byName.map Prod.fst)
    some (names, names.filterMap (fun n => byName.lookup n))

/-- Model of `HashMap::insert` while building `by_name`: overwrite the value
of an existing key, otherwise add the entry. -/
def insertReplace (name : String) (val : MontyObject)
    (m : List (String × MontyObject)) : List (String × MontyObject) :=
  if (m.lookup name).isSome then
    m.map (fun p => if p.1 = name then (name, val) else p)
  else m ++ [(name, val)]

mutual
/-- Model of `decode_monty_object`: translate a host term into a canonical
value, `none` standing for a `BadArg` decode failure. -/
def decodeMontyObject : ErlTerm → Option MontyObject
  | .atom s =>
    some (if s = "nil" then .none
      else if s = "true" then .bool true
      else if s = "false" then .bool false
      else if s = "ellipsis" then .ellipsis
      else .str s)
  | .int n => some (if fitsI64 n then .int n else .bigInt n)
  | .float bits => some (.float bits)
  | .binary (.str s) => some (.str s)
  | .binary (.raw bs) => some (.bytes bs)
  | .tuple [.atom tag, x] =>
    if tag = "bytes" then
      match x with
      | .binary b => some (.bytes b.toBytes)
      | _ => Option.none
    else if tag = "path" then
      match x with
      | .binary (.str p) => some (.path p)
      | _ => Option.none
    else if tag = "repr" then
      match x with
      | .binary (.str r) => some (.repr r)
      | _ => Option.none
    else (decodeObjList [.atom tag, x]).map .tuple
  | .tuple [.atom tag, a, b] =>
    if tag = "named_tuple" then decodeNamedTuple a b
    else if tag = "__bigint__" then
      match a, b with
      | .int sgn, .binary bin =>
        if fitsI32 sgn then some (.bigInt (bigintFromSignBytes sgn bin.toBytes))
        else Option.none
      | _, _ => Option.none
    else (decodeObjList [.atom tag, a, b]).map .tuple
  | .tuple elems => (decodeObjList elems).map .tuple
  | .list ts => (decodeObjList ts).map .list
  | .map entries =>
    match mapGet entries (.atom "__struct__") with
    | some (.atom structName) =>
      if structName = "Elixir.MapSet" then
        decodeMapSetInner (mapGet entries (.atom "map"))
      else (decodeObjPairs entries).map .dict
    | some _ => (decodeObjPairs entries).map .dict
    | Option.none => (decodeObjPairs entries).map .dict
  | .ref _ => Option.none
termination_by t => sizeOf t
decreasing_by
  all_goals first
  | decreasing_tactic
  | (have aux : ∀ (l : List (ErlTerm × ErlTerm)) (k v : ErlTerm),
        mapGet l k = some v → sizeOf v < sizeOf l := by
      intro l k v h
      induction l with
      | nil => simp [mapGet] at h
      | cons p rest ih =>
        obtain ⟨k', v'⟩ := p
        rw [mapGet] at h
        by_cases hb : k'.beq k = true
        · simp [hb] at h
          subst h
          simp
          omega
        · simp [hb] at h
          have := ih h
          simp
          omega
     cases hmg : mapGet entries (.atom "map") with
     | none =>
       have hpos : 1 ≤ sizeOf entries := by
         cases entries <;> simp <;> omega
       simp [hmg]
       omega
     | some v =>
       have := aux entries (.atom "map") v hmg
       simp [hmg] at this ⊢
       omega)

/-- Decode every element of a term list. -/
def decodeObjList : List ErlTerm → Option (List MontyObject)
  | [] => some []
  | t :: ts => do
    let v ← decodeMontyObject t
    let vs ← decodeObjList ts
    pure (v :: vs)
termination_by l => sizeOf l

/-- Decode every key/value entry of a plain map into dictionary pairs. -/
def decodeObjPairs : List (ErlTerm × ErlTerm) → Option (List (MontyObject × MontyObject))
  | [] => some []
  | (k, v) :: rest => do
    let k' ← decodeMontyObject k
    let v' ← decodeMontyObject v
    let ps ← decodeObjPairs rest
    pure ((k', v') :: ps)
termination_by l => sizeOf l

/-- Decode the looked-up inner map of an `Elixir.MapSet` struct into set
members (any other shape of the `map` field is a `BadArg`). -/
def decodeMapSetInner : Option ErlTerm → Option MontyObject
  | some (.map inner) => (decodeSetMembers inner).map .set
  | _ => Option.none
termination_by o => sizeOf o

/-- Decode the member keys of a MapSet's inner map, discarding the
placeholder values. -/
def decodeSetMembers : List (ErlTerm × ErlTerm) → Option (List MontyObject)
  | [] => some []
  | (k, _) :: rest => do
    let m ← decodeMontyObject k
    let ms ← decodeSetMembers rest
    pure (m :: ms)
termination_by l => sizeOf l

/-- Decode the order-preserving list-of-pairs field representation of a
named tuple. -/
def decodeFieldPairs : List ErlTerm → Option (List String × List MontyObject)
  | [] => some ([], [])
  | .tuple [kn, v] :: rest => do
    let name ← nameTermStr kn
    let val ← decodeMontyObject v
    let nv ← decodeFieldPairs rest
    pure (name :: nv.1, val :: nv.2)
  | _ => Option.none
termination_by l => sizeOf l

/-- Build the unordered `by_name` mapping from a map-shaped named-tuple
field term (`HashMap` accumulation in iteration order). -/
def decodeByName : List (ErlTerm × ErlTerm) → List (String × MontyObject) →
    Option (List (String × MontyObject))
  | [], acc => some acc
  | (k, v) :: rest, acc => do
    let name ← nameTermStr k
    let val ← decodeMontyObject v
    decodeByName rest (insertReplace name val acc)
termination_by l _ => sizeOf l

/-- Model of `decode_named_tuple`: type name from an atom or UTF-8 binary,
normalized; fields either as an order-preserving pair list or as an
unordered mapping resolved by `order_named_tuple_fields`. -/
def decodeNamedTuple (a b : ErlTerm) : Option MontyObject :=
  match nameTermStr a with
  | Option.none => Option.none
  | some rawName =>
    let typeName := normalizeNamedtupleTypeName rawName
    match b with
    | .list fields =>
      (decodeFieldPairs fields).map (fun nv => .namedTuple typeName nv.1 nv.2)
    | .map entries =>
      (decodeByName entries []).bind (fun byName =>
        (orderNamedTupleFields typeName byName).map
          (fun nv => .namedTuple typeName nv.1 nv.2))
    | _ => Option.none
termination_by sizeOf a + sizeOf b
end

-- ── Input reconciliation (types.rs decode_inputs) ─────────────────────────────

/-- Rustler error values the bridge produces: `BadArg`, `Error::Term(msg)`
and `Error::RaiseTerm(msg)`. -/
inductive NifError where
  | badArg
  | termErr (msg : String)
  | raiseTerm (msg : String)

/-- The duplicate-declared-name check: insert each expected name into a set
in order, failing at the first name already present. -/
def checkDupNames : List String → List String → Except NifError Unit
  | [], _ => .ok ()
  | n :: rest, seen =>
    if seen.contains n then
      .error (.termErr ("runner has duplicate input name: " ++ n))
    else checkDupNames rest (n :: seen)

/-- The provided-inputs loop of `decode_inputs`: reject a duplicate supplied
name, decode each value, accumulate the name→value mapping. -/
def buildProvided : List (String × ErlTerm) → List (String × MontyObject) →
    Except NifError (List (String × MontyObject))
  | [], acc => .ok acc
  | (name, t) :: rest, acc =>
    if (acc.lookup name).isSome then
      .error (.termErr ("duplicate input provided: " ++ name))
    else
      match decodeMontyObject t with
      | some v => buildProvided rest (acc ++ [(name, v)])
      | Option.none => .error .badArg

/-- The reordering loop of `decode_inputs`: remove each declared name from
the provided mapping, collecting present values in declared order and
missing names into a sorted set.  Returns (missing, remaining provided,
ordered values). -/
def collectOrdered : List String → List (String × MontyObject) →
    List String → List MontyObject →
    List String × List (String × MontyObject) × List MontyObject
  | [], provided, missing, ordered => (missing, provided, ordered)
  | n :: rest, provided, missing, ordered =>
    match lookupRemove n provided with
    | some r => collectOrdered rest r.2 missing (ordered ++ [r.1])
    | Option.none => collectOrdered rest provided (sortedInsert n missing) ordered

/-- Model of `decode_inputs`: reconcile supplied (name, term) pairs against
the declared input names, returning the decoded values in declared order. -/
def decodeInputs (inputs : List (String × ErlTerm))
    (expectedInputNames : List String) : Except NifError (List MontyObject) :=
  if expectedInputNames.isEmpty then
    if inputs.isEmpty then .ok []
    else
      .error (.termErr ("unexpected inputs: expected none, got " ++
        toString inputs.length))
  else
    match checkDupNames expectedInputNames [] with
    | .error e => .error e
    | .ok _ =>
      match buildProvided inputs [] with
      | .error e => .error e
      | .ok provided =>
        let r := collectOrdered expectedInputNames provided [] []
        if !r.1.isEmpty then
          .error (.termErr ("missing required inputs: " ++
            String.intercalate ", " r.1))
        else if !r.2.1.isEmpty then
          .error (.termErr ("unexpected inputs: " ++
            String.intercalate ", " (sortNames (r.2.1.map Prod.fst))))
        else .ok r.2.2

-- ── External-call reconciliation (interactive.rs) ─────────────────────────────

/-- Modelled from the spec: the engine's known error-tag set (the
`monty::ExcType` variants, in their capitalized-compound `to_string`/
`from_str` rendering), which is outside this repository.  The set is
abstract for the theorems below except that it contains the generic
`RuntimeError` tag. -/
def knownExcTypes : List String :=
  ["TypeError", "ValueError", "NameError", "KeyError", "IndexError",
   "AttributeError", "ZeroDivisionError", "RuntimeError", "StopIteration",
   "NotImplementedError", "OsError", "ImportError", "RecursionError",
   "MemoryError"]

/-- Model of `monty::ExcType::from_str`: exact match against the known
error-tag set. -/
def excTypeFromStr (s : String) : Option String :=
  if knownExcTypes.contains s then some s else Option.none

/-- Model of `parse_exc_type`: exact match, then the snake_case → PascalCase
retry, then the `RuntimeError` fallback. -/
def parseExcType (s : String) : String :=
  match excTypeFromStr s with
  | some t => t
  | Option.none =>
    match excTypeFromStr (pascalCase s) with
    | some t => t
    | Option.none => "RuntimeError"

/-- Model of `monty::ExternalResult`: a decoded external-call outcome. -/
inductive ExternalResult where
  | ret (v : MontyObject)
  | err (excType : String) (message : Option String)

/-- Rust `term.decode::<String>()`: succeeds exactly on UTF-8 binaries. -/
def stringDecode : ErlTerm → Option String
  | .binary (.str s) => some s
  | _ => Option.none

/-- Model of `decode_external_result`: `{:ok, v}` and `{:error, ...}` tuples
are dispatched on their tag; every other term is decoded as a bare success
value. -/
def decodeExternalResult (t : ErlTerm) : Option ExternalResult :=
  match t with
  | .tuple (.atom tag :: e1 :: rest) =>
    if tag = "ok" then (decodeMontyObject e1).map .ret
    else if tag = "error" then
      match rest with
      | [e2] =>
        let typeStr :=
          match stringDecode e1 with
          | some s => s
          | Option.none =>
            match e1 with
            | .atom a => a
            | _ => "runtime_error"
        let msg :=
          match stringDecode e2 with
          | some m => m
          | Option.none => "unknown error"
        some (.err (parseExcType typeStr) (some msg))
      | _ =>
        let msg :=
          match stringDecode e1 with
          | some m => m
          | Option.none => "unknown error"
        some (.err "RuntimeError" (some msg))
    else (decodeMontyObject (.tuple (.atom tag :: e1 :: rest))).map .ret
  | _ => (decodeMontyObject t).map .ret

-- ── Take-once continuation resources (resources.rs, interactive.rs) ───────────

/-- Model of `SnapshotResource`: a `Mutex<Option<Snapshot>>` cell; the
snapshot state itself is opaque (`σ`). -/
structure SnapshotResource (σ : Type) where
  cell : Option σ

/-- Model of `SnapshotResource::take`: `lock().take()` — extract the
snapshot and leave the cell empty. -/
def SnapshotResource.take {σ : Type} (r : SnapshotResource σ) :
    Option σ × SnapshotResource σ :=
  (r.cell, ⟨Option.none⟩)

/-- Model of the `resume` NIF's consuming structure: take the snapshot (or
raise the already-consumed error), then run the continuation.  The decoding
of the supplied result and the engine's `Snapshot::run` are abstracted into
`run`. -/
def resumeOp {σ ρ : Type} (run : σ → ρ) (r : SnapshotResource σ) :
    Except NifError ρ × SnapshotResource σ :=
  match r.take with
  | (some snap, r') => (.ok (run snap), r')
  | (Option.none, r') => (.error (.raiseTerm "snapshot already consumed"), r')

/-- Model of the `dump_snapshot` NIF: take the snapshot (or raise the
already-consumed error), then serialize it. -/
def dumpSnapshotOp {σ : Type} (ser : σ → List Nat) (r : SnapshotResource σ) :
    Except NifError (List Nat) × SnapshotResource σ :=
  match r.take with
  | (some snap, r') => (.ok (ser snap), r')
  | (Option.none, r') => (.error (.raiseTerm "snapshot already consumed"), r')

/-- Model of `FutureSnapshotResource`: a `Mutex<Option<FutureSnapshot>>`
cell. -/
structure FutureSnapshotResource (φ : Type) where
  cell : Option φ

/-- Model of `FutureSnapshotResource::take`. -/
def FutureSnapshotResource.take {φ : Type} (r : FutureSnapshotResource φ) :
    Option φ × FutureSnapshotResource φ :=
  (r.cell, ⟨Option.none⟩)

/-- Model of `FutureSnapshotResource::with`: apply a function to the held
snapshot through a shared borrow, without consuming it. -/
def FutureSnapshotResource.with {φ ρ : Type} (r : FutureSnapshotResource φ)
    (f : φ → ρ) : Option ρ :=
  r.cell.map f

/-- Model of the `resume_futures` NIF's consuming structure. -/
def resumeFuturesOp {φ ρ : Type} (run : φ → ρ) (r : FutureSnapshotResource φ) :
    Except NifError ρ × FutureSnapshotResource φ :=
  match r.take with
  | (some snap, r') => (.ok (run snap), r')
  | (Option.none, r') =>
    (.error (.raiseTerm "future snapshot already consumed"), r')

/-- Model of the `dump_future_snapshot` NIF. -/
def dumpFutureSnapshotOp {φ : Type} (ser : φ → List Nat)
    (r : FutureSnapshotResource φ) :
    Except NifError (List Nat) × FutureSnapshotResource φ :=
  match r.take with
  | (some snap, r') => (.ok (ser snap), r')
  | (Option.none, r') =>
    (.error (.raiseTerm "future snapshot already consumed"), r')

/-- Model of the `pending_call_ids` NIF: read the ordered outstanding call
ids through `with`; the resource state is returned unchanged. -/
def pendingCallIdsOp {φ : Type} (pending : φ → List Nat)
    (r : FutureSnapshotResource φ) :
    Except NifError (List Nat) × FutureSnapshotResource φ :=
  match r.with pending with
  | some ids => (.ok ids, r)
  | Option.none => (.error (.raiseTerm "future snapshot already consumed"), r)

/-- Run `n` successive `pending_call_ids` queries, threading the resource
state. -/
def iterPendingQueries {φ : Type} (pending : φ → List Nat) :
    Nat → FutureSnapshotResource φ →
    List (Except NifError (List Nat)) × FutureSnapshotResource φ
  | 0, r => ([], r)
  | Nat.succ n, r =>
    let step := pendingCallIdsOp pending r
    let rest := iterPendingQueries pending n step.2
    (step.1 :: rest.1, rest.2)

/-- A term shaped like a host outcome tuple: a tuple of at least two
elements whose first element is the atom `ok` or `error`. -/
def okErrorTagged (t : ErlTerm) : Prop :=
  ∃ (tag : String) (e1 : ErlTerm) (rest : List ErlTerm),
    t = .tuple (.atom tag :: e1 :: rest) ∧ (tag = "ok" ∨ tag = "error")

-- ── The faithfully-round-tripping fragment of the value model ─────────────────

/-- Canonical values whose encoding decodes back to the identical value:
no opaque/display-only variants anywhere, arbitrary-precision integers
outside the i64 range, named-tuple type names fixed by normalization and
with matching field/value counts, duplicate-free dictionary keys and set
members, and no exception, data-class or frozen-set subvalues. -/
inductive Faithful : MontyObject → Prop where
  | none : Faithful .none
  | bool (b : Bool) : Faithful (.bool b)
  | int (i : Int) : fitsI64 i = true → Faithful (.int i)
  | bigInt (i : Int) : fitsI64 i = false → Faithful (.bigInt i)
  | float (bits : Nat) : Faithful (.float bits)
  | str (s : String) : Faithful (.str s)
  | bytes (bs : List Nat) : Faithful (.bytes bs)
  | ellipsis : Faithful .ellipsis
  | list (items : List MontyObject) :
      (∀ x ∈ items, Faithful x) → Faithful (.list items)
  | tuple (items : List MontyObject) :
      (∀ x ∈ items, Faithful x) → Faithful (.tuple items)
  | dict (pairs : List (MontyObject × MontyObject)) :
      (pairs.map Prod.fst).Nodup →
      (∀ p ∈ pairs, Faithful p.1) → (∀ p ∈ pairs, Faithful p.2) →
      Faithful (.dict pairs)
  | set (items : List MontyObject) :
      items.Nodup → (∀ x ∈ items, Faithful x) → Faithful (.set items)
  | path (p : String) : Faithful (.path p)
  | namedTuple (tn : String) (fns : List String) (vs : List MontyObject) :
      normalizeNamedtupleTypeName tn = tn → fns.length = vs.length →
      (∀ x ∈ vs, Faithful x) → Faithful (.namedTuple tn fns vs)

-- ── Theorems ──────────────────────────────────────────────────────────────────

/-- C2: the first consuming operation (resume or dump) on a live single
continuation succeeds, and any second consuming operation on the resulting
state — resume after resume, dump after resume, resume after dump, dump
after dump — returns the explicit already-consumed error; the same holds
for multi continuations under `resume_futures` and `dump_future_snapshot`. -/
theorem continuation_consumed_at_most_once :
    (∀ (σ ρ ρ' : Type) (run : σ → ρ) (run' : σ → ρ') (ser ser' : σ → List Nat)
        (s : σ),
      (resumeOp run ⟨some s⟩).1 = .ok (run s) ∧
      (resumeOp run' (resumeOp run ⟨some s⟩).2).1 =
        .error (.raiseTerm "snapshot already consumed") ∧
      (dumpSnapshotOp ser (resumeOp run ⟨some s⟩).2).1 =
        .error (.raiseTerm "snapshot already consumed") ∧
      (dumpSnapshotOp ser ⟨some s⟩).1 = .ok (ser s) ∧
      (resumeOp run (dumpSnapshotOp ser ⟨some s⟩).2).1 =
        .error (.raiseTerm "snapshot already consumed") ∧
      (dumpSnapshotOp ser' (dumpSnapshotOp ser ⟨some s⟩).2).1 =
        .error (.raiseTerm "snapshot already consumed")) ∧
    (∀ (φ ρ ρ' : Type) (run : φ → ρ) (run' : φ → ρ') (ser ser' : φ → List Nat)
        (s : φ),
      (resumeFuturesOp run ⟨some s⟩).1 = .ok (run s) ∧
      (resumeFuturesOp run' (resumeFuturesOp run ⟨some s⟩).2).1 =
        .error (.raiseTerm "future snapshot already consumed") ∧
      (dumpFutureSnapshotOp ser (resumeFuturesOp run ⟨some s⟩).2).1 =
        .error (.raiseTerm "future snapshot already consumed") ∧
      (dumpFutureSnapshotOp ser ⟨some s⟩).1 = .ok (ser s) ∧
      (resumeFuturesOp run (dumpFutureSnapshotOp ser ⟨some s⟩).2).1 =
        .error (.raiseTerm "future snapshot already consumed") ∧
      (dumpFutureSnapshotOp ser' (dumpFutureSnapshotOp ser ⟨some s⟩).2).1 =
        .error (.raiseTerm "future snapshot already consumed")) :=
  ⟨fun _ _ _ _ _ _ _ _ => ⟨rfl, rfl, rfl, rfl, rfl, rfl⟩,
   fun _ _ _ _ _ _ _ _ => ⟨rfl, rfl, rfl, rfl, rfl, rfl⟩⟩

/-- C8: any number of `pending_call_ids` queries on a live multi
continuation all return the same ordered call-id list and leave the
resource state unchanged, after which one consuming resume still succeeds
and only a second one fails. -/
theorem pending_call_ids_non_consuming :
    ∀ (φ : Type) (pending : φ → List Nat) (s : φ) (n : Nat),
      iterPendingQueries pending n ⟨some s⟩ =
        (List.replicate n (.ok (pending s)), ⟨some s⟩) ∧
      (∀ (ρ : Type) (run : φ → ρ),
        (resumeFuturesOp run (iterPendingQueries pending n ⟨some s⟩).2).1 =
          .ok (run s) ∧
        (resumeFuturesOp run
            (resumeFuturesOp run (iterPendingQueries pending n ⟨some s⟩).2).2).1 =
          .error (.raiseTerm "future snapshot already consumed")) := by
  intro φ pending s n
  have hiter : iterPendingQueries pending n
      (⟨some s⟩ : FutureSnapshotResource φ) =
      (List.replicate n (.ok (pending s)), ⟨some s⟩) := by
    induction n with
    | zero => rfl
    | succ n ih =>
      simp [iterPendingQueries, pendingCallIdsOp, FutureSnapshotResource.with,
        ih, List.replicate_succ]
  refine ⟨hiter, ?_⟩
  intro ρ run
  rw [hiter]
  exact ⟨rfl, rfl⟩

/-- C7: encoding is total — it is a function into host terms — and the
variants with no native host form degrade to tagged wrappers: raw bytes to
the two-element `{:bytes, binary}` wrapper and filesystem paths to the
`{:path, string}` wrapper. -/
theorem encode_total_and_tagged_wrappers :
    (∀ v : MontyObject, ∃ t : ErlTerm, encodeMontyObject v = t) ∧
    (∀ bs : List Nat,
      encodeMontyObject (.bytes bs) = .tuple [.atom "bytes", .binary (.raw bs)]) ∧
    (∀ p : String,
      encodeMontyObject (.path p) = .tuple [.atom "path", .binary (.str p)]) := by
  refine ⟨fun v => ⟨encodeMontyObject v, rfl⟩, fun bs => ?_, fun p => ?_⟩ <;>
    simp [encodeMontyObject]

/-- C9: decoding a host atom never fails — `nil`, `true`, `false` and
`ellipsis` decode to the absence-of-value, the booleans and the ellipsis
value, and every other atom decodes to a text value holding the atom's
name. -/
theorem decode_atom_never_fails :
    decodeMontyObject (.atom "nil") = some MontyObject.none ∧
    decodeMontyObject (.atom "true") = some (.bool true) ∧
    decodeMontyObject (.atom "false") = some (.bool false) ∧
    decodeMontyObject (.atom "ellipsis") = some MontyObject.ellipsis ∧
    (∀ s : String, s ≠ "nil" → s ≠ "true" → s ≠ "false" → s ≠ "ellipsis" →
      decodeMontyObject (.atom s) = some (.str s)) := by
  refine ⟨by simp [decodeMontyObject], by simp [decodeMontyObject],
    by simp [decodeMontyObject], by simp [decodeMontyObject], ?_⟩
  intro s h1 h2 h3 h4
  simp [decodeMontyObject, h1, h2, h3, h4]

/-- Witness for C9: the atom `hello` decodes to the text value "hello". -/
theorem decode_atom_never_fails_witness :
    decodeMontyObject (.atom "hello") = some (.str "hello") :=
  decode_atom_never_fails.2.2.2.2 "hello" (by decide) (by decide) (by decide)
    (by decide)

/-- C10: a host term that is not an ok/error-tagged tuple decodes as a bare
success outcome through the value codec — identically to the same value
wrapped in an `{:ok, _}` tuple — and is never rejected as a malformed
outcome shape. -/
theorem bare_value_outcome_is_success :
    ∀ t : ErlTerm, ¬ okErrorTagged t →
      decodeExternalResult t = (decodeMontyObject t).map ExternalResult.ret ∧
      decodeExternalResult (.tuple [.atom "ok", t]) =
        (decodeMontyObject t).map ExternalResult.ret := by
  intro t ht
  constructor
  · match t with
    | .tuple (.atom tag :: e1 :: rest) =>
      have hok : tag ≠ "ok" := fun h => ht ⟨tag, e1, rest, rfl, Or.inl h⟩
      have herr : tag ≠ "error" := fun h => ht ⟨tag, e1, rest, rfl, Or.inr h⟩
      simp [decodeExternalResult, hok, herr]
    | .atom s => simp [decodeExternalResult]
    | .int n => simp [decodeExternalResult]
    | .float b => simp [decodeExternalResult]
    | .binary b => simp [decodeExternalResult]
    | .tuple [] => simp [decodeExternalResult]
    | .tuple [x] => simp [decodeExternalResult]
    | .tuple (.int n :: e1 :: rest) => simp [decodeExternalResult]
    | .tuple (.float b :: e1 :: rest) => simp [decodeExternalResult]
    | .tuple (.binary b :: e1 :: rest) => simp [decodeExternalResult]
    | .tuple (.tuple es :: e1 :: rest) => simp [decodeExternalResult]
    | .tuple (.list es :: e1 :: rest) => simp [decodeExternalResult]
    | .tuple (.map m :: e1 :: rest) => simp [decodeExternalResult]
    | .tuple (.ref i :: e1 :: rest) => simp [decodeExternalResult]
    | .list es => simp [decodeExternalResult]
    | .map m => simp [decodeExternalResult]
    | .ref i => simp [decodeExternalResult]
  · simp [decodeExternalResult]

/-- Helper: binary-payload equality tests are sound and complete. -/
theorem binPayload_beq_iff (a b : BinPayload) : a.beq b = true ↔ a = b := by
  cases a <;> cases b <;> simp [BinPayload.beq]

/-- Helper: size-bounded soundness of the term equality test, proved for
terms, term lists and entry lists simultaneously. -/
theorem erlTerm_beq_sound_aux : ∀ n : Nat,
    (∀ a b : ErlTerm, sizeOf a ≤ n → a.beq b = true → a = b) ∧
    (∀ xs ys : List ErlTerm, sizeOf xs ≤ n → ErlTerm.beqList xs ys = true → xs = ys) ∧
    (∀ ps qs : List (ErlTerm × ErlTerm), sizeOf ps ≤ n →
      ErlTerm.beqPairs ps qs = true → ps = qs) := by
  intro n
  induction n with
  | zero =>
    refine ⟨fun a b hs _ => absurd hs ?_, fun xs ys hs _ => absurd hs ?_,
      fun ps qs hs _ => absurd hs ?_⟩
    · cases a <;> simp
    · cases xs <;> simp
    · cases ps <;> simp
  | succ n ih =>
    obtain ⟨ihT, ihL, ihP⟩ := ih
    refine ⟨?_, ?_, ?_⟩
    · intro a b hs h
      rw [ErlTerm.beq.eq_def] at h
      split at h <;>
        first
        | (simp only [beq_iff_eq] at h; rw [h])
        | (rw [(binPayload_beq_iff _ _).mp h])
        | (rw [ihL _ _ (by simp at hs; omega) h])
        | (rw [ihP _ _ (by simp at hs; omega) h])
        | simp at h
    · intro xs ys hs h
      cases xs with
      | nil => cases ys with
        | nil => rfl
        | cons y ys' => simp [ErlTerm.beqList] at h
      | cons x xs' =>
        cases ys with
        | nil => simp [ErlTerm.beqList] at h
        | cons y ys' =>
          simp only [ErlTerm.beqList, Bool.and_eq_true] at h
          have h1 := ihT x y (by simp at hs; omega) h.1
          have h2 := ihL xs' ys' (by simp at hs; omega) h.2
          rw [h1, h2]
    · intro ps qs hs h
      cases ps with
      | nil => cases qs with
        | nil => rfl
        | cons q qs' => simp [ErlTerm.beqPairs] at h
      | cons p ps' =>
        obtain ⟨k, v⟩ := p
        cases qs with
        | nil => simp [ErlTerm.beqPairs] at h
        | cons q qs' =>
          obtain ⟨k', v'⟩ := q
          simp only [ErlTerm.beqPairs, Bool.and_eq_true] at h
          have hk := ihT k k' (by simp at hs; omega) h.1.1
          have hv := ihT v v' (by simp at hs; omega) h.1.2
          have hr := ihP ps' qs' (by simp at hs; omega) h.2
          rw [hk, hv, hr]

/-- Helper: the term equality test is sound. -/
theorem erlTerm_beq_sound (a b : ErlTerm) (h : a.beq b = true) : a = b :=
  (erlTerm_beq_sound_aux (sizeOf a)).1 a b le_rfl h

/-- Helper: distinct terms compare unequal. -/
theorem erlTerm_beq_false_of_ne (a b : ErlTerm) (h : a ≠ b) : a.beq b = false := by
  cases hb : a.beq b
  · rfl
  · exact absurd (erlTerm_beq_sound a b hb) h

/-- Helper: `map_put` with a fresh key appends the entry. -/
theorem mapPut_of_fresh_key (m : List (ErlTerm × ErlTerm)) (k v : ErlTerm)
    (h : ∀ p ∈ m, p.1.beq k = false) : mapPut m k v = m ++ [(k, v)] := by
  have hany : (m.any fun p => p.1.beq k) = false := by
    simp only [List.any_eq_false]
    intro p hp
    simp [h p hp]
  simp [mapPut, hany]

/-- Helper: folding `map_put` over entries with pairwise-distinct keys,
starting from an accumulator whose keys are disjoint from theirs, appends
them in order. -/
theorem mapPut_foldl (l : List (ErlTerm × ErlTerm)) :
    ∀ acc : List (ErlTerm × ErlTerm),
      (∀ q ∈ acc, ∀ p ∈ l, q.1.beq p.1 = false) →
      l.Pairwise (fun p q => p.1.beq q.1 = false) →
      l.foldl (fun acc p => mapPut acc p.1 p.2) acc = acc ++ l := by
  induction l with
  | nil => intro acc _ _; simp
  | cons p rest ih =>
    intro acc hacc hl
    have hput : mapPut acc p.1 p.2 = acc ++ [p] := by
      rw [mapPut_of_fresh_key acc p.1 p.2 (fun q hq => hacc q hq p (by simp))]
    have hacc' : ∀ q ∈ acc ++ [p], ∀ r ∈ rest, q.1.beq r.1 = false := by
      intro q hq r hr
      rcases List.mem_append.mp hq with hq | hq
      · exact hacc q hq r (by simp [hr])
      · simp only [List.mem_singleton] at hq
        subst hq
        exact (List.pairwise_cons.mp hl).1 r hr
    calc (p :: rest).foldl (fun acc p => mapPut acc p.1 p.2) acc
        = rest.foldl (fun acc p => mapPut acc p.1 p.2) (acc ++ [p]) := by
          simp [List.foldl_cons, hput]
      _ = (acc ++ [p]) ++ rest := ih (acc ++ [p]) hacc' (List.pairwise_cons.mp hl).2
      _ = acc ++ p :: rest := by simp

/-- Helper: `buildMap` over pairwise-distinct keys is the identity. -/
theorem buildMap_eq_self (l : List (ErlTerm × ErlTerm))
    (hl : l.Pairwise (fun p q => p.1.beq q.1 = false)) : buildMap l = l := by
  have := mapPut_foldl l [] (by intro q hq; simp at hq) hl
  simpa [buildMap] using this

/-- Helper: dictionary pair encoding is elementwise. -/
theorem encodeObjPairs_eq_map (pairs : List (MontyObject × MontyObject)) :
    encodeObjPairs pairs =
      pairs.map (fun p => (encodeMontyObject p.1, encodeMontyObject p.2)) := by
  induction pairs with
  | nil => simp [encodeObjPairs]
  | cons p rest ih => obtain ⟨k, v⟩ := p; simp [encodeObjPairs, ih]

/-- Helper: list encoding is elementwise. -/
theorem encodeObjList_eq_map (items : List MontyObject) :
    encodeObjList items = items.map encodeMontyObject := by
  induction items with
  | nil => simp [encodeObjList]
  | cons x rest ih => simp [encodeObjList, ih]

/-- C4: encoding an ordered-key dictionary whose keys encode to pairwise
distinct host terms produces the map entries in exactly the dictionary's
insertion order. -/
theorem dict_encode_preserves_insertion_order
    (pairs : List (MontyObject × MontyObject))
    (h : (pairs.map (fun p => encodeMontyObject p.1)).Nodup) :
    encodeMontyObject (.dict pairs) =
      .map (pairs.map (fun p => (encodeMontyObject p.1, encodeMontyObject p.2))) := by
  have hmap := encodeObjPairs_eq_map pairs
  have hpw : (encodeObjPairs pairs).Pairwise (fun p q => p.1.beq q.1 = false) := by
    rw [hmap, List.pairwise_map]
    rw [List.Nodup, List.pairwise_map] at h
    exact h.imp (fun hne => erlTerm_beq_false_of_ne _ _ hne)
  rw [show encodeMontyObject (.dict pairs) = .map (buildMap (encodeObjPairs pairs))
      from by simp [encodeMontyObject],
    buildMap_eq_self _ hpw, hmap]

/-- Witness for C4: a dictionary with keys inserted in the order "b", "a"
re-encodes with its entries in exactly that order. -/
theorem dict_encode_preserves_insertion_order_witness :
    encodeMontyObject (.dict [(.str "b", .int 1), (.str "a", .int 2)]) =
      .map [(.binary (.str "b"), .int 1), (.binary (.str "a"), .int 2)] := by
  have h := dict_encode_preserves_insertion_order
    [(.str "b", .int 1), (.str "a", .int 2)]
    (by simp [encodeMontyObject])
  simpa [encodeMontyObject] using h

/-- Helper: removing an absent key fails. -/
theorem lookupRemove_none (m : List (String × MontyObject)) (n : String)
    (h : n ∉ m.map Prod.fst) : lookupRemove n m = Option.none := by
  induction m with
  | nil => rfl
  | cons p rest ih =>
    obtain ⟨k, v⟩ := p
    simp only [List.map_cons, List.mem_cons, not_or] at h
    simp [lookupRemove, Ne.symm h.1, ih h.2]

/-- Helper: removing a present key from a duplicate-free mapping yields its
looked-up value and the mapping without that key. -/
theorem lookupRemove_some (m : List (String × MontyObject)) (n : String)
    (hnd : (m.map Prod.fst).Nodup) (hmem : n ∈ m.map Prod.fst) :
    ∃ v m', lookupRemove n m = some (v, m') ∧ m.lookup n = some v ∧
      (m'.map Prod.fst).Nodup ∧
      (∀ k, k ∈ m'.map Prod.fst ↔ k ∈ m.map Prod.fst ∧ k ≠ n) ∧
      (∀ k, k ≠ n → m'.lookup k = m.lookup k) := by
  induction m with
  | nil => simp at hmem
  | cons p rest ih =>
    obtain ⟨k0, v0⟩ := p
    simp only [List.map_cons, List.nodup_cons] at hnd
    by_cases hk : k0 = n
    · subst hk
      refine ⟨v0, rest, by simp [lookupRemove], by simp [List.lookup], hnd.2,
        ?_, ?_⟩
      · intro k
        constructor
        · intro hk
          exact ⟨by simp [hk], fun he => hnd.1 (he ▸ hk)⟩
        · intro ⟨hk1, hk2⟩
          simp only [List.map_cons, List.mem_cons] at hk1
          exact hk1.resolve_left hk2
      · intro k hk
        simp [List.lookup, beq_eq_false_iff_ne.mpr hk]
    · simp only [List.map_cons, List.mem_cons] at hmem
      obtain ⟨v, m', h1, h2, h3, h4, h5⟩ :=
        ih hnd.2 (hmem.resolve_left (fun h => hk h.symm))
      refine ⟨v, (k0, v0) :: m', ?_, ?_, ?_, ?_, ?_⟩
      · simp [lookupRemove, hk, h1]
      · simp [List.lookup, beq_eq_false_iff_ne.mpr (Ne.symm hk), h2]
      · simp only [List.map_cons, List.nodup_cons]
        exact ⟨fun hmem' => hnd.1 ((h4 k0).mp hmem').1, h3⟩
      · intro k
        simp only [List.map_cons, List.mem_cons]
        constructor
        · intro h
          rcases h with h | h
          · exact ⟨Or.inl h, h ▸ hk⟩
          · have := (h4 k).mp h
            exact ⟨Or.inr this.1, this.2⟩
        · intro ⟨h6, h7⟩
          rcases h6 with h6 | h6
          · exact Or.inl h6
          · exact Or.inr ((h4 k).mpr ⟨h6, h7⟩)
      · intro k hk'
        by_cases hkk : k = k0
        · subst hkk
          simp [List.lookup]
        · simp [List.lookup, beq_eq_false_iff_ne.mpr hkk, h5 k hk']

/-- Helper: the StatResult take loop succeeds on an exact field set, in the
requested order with looked-up values. -/
theorem statTakeFields_exact (names : List String) :
    ∀ m : List (String × MontyObject), names.Nodup →
      (m.map Prod.fst).Nodup →
      (∀ n ∈ names, n ∈ m.map Prod.fst) →
      (∀ k ∈ m.map Prod.fst, k ∈ names) →
      statTakeFields names m =
        some (names, names.filterMap (fun n => m.lookup n)) := by
  induction names with
  | nil =>
    intro m _ _ _ hsub
    have : m = [] := by
      cases m with
      | nil => rfl
      | cons p rest => exact absurd (hsub p.1 (by simp)) (by simp)
    subst this
    rfl
  | cons n rest ih =>
    intro m hnodup hnd hall hsub
    simp only [List.nodup_cons] at hnodup
    obtain ⟨v, m', h1, h2, h3, h4, h5⟩ :=
      lookupRemove_some m n hnd (hall n (by simp))
    have hall' : ∀ k ∈ rest, k ∈ m'.map Prod.fst := by
      intro k hk
      exact (h4 k).mpr ⟨hall k (by simp [hk]), fun he => hnodup.1 (he ▸ hk)⟩
    have hsub' : ∀ k ∈ m'.map Prod.fst, k ∈ rest := by
      intro k hk
      obtain ⟨hk1, hk2⟩ := (h4 k).mp hk
      exact (List.mem_cons.mp (hsub k hk1)).resolve_left hk2
    have hlook : rest.filterMap (fun k => m'.lookup k) =
        rest.filterMap (fun k => m.lookup k) := by
      apply List.filterMap_congr
      intro k hk
      exact h5 k (fun he => hnodup.1 (he ▸ hk))
    simp [statTakeFields, h1, ih m' hnodup.2 h3 hall' hsub', h2, hlook]

/-- Helper: the StatResult take loop fails when a requested field is
missing. -/
theorem statTakeFields_missing (names : List String) :
    ∀ m : List (String × MontyObject), (m.map Prod.fst).Nodup →
      (∃ n ∈ names, n ∉ m.map Prod.fst) →
      statTakeFields names m = Option.none := by
  induction names with
  | nil => intro m _ h; simp at h
  | cons n0 rest ih =>
    intro m hnd ⟨n, hn, hnmem⟩
    by_cases h0 : n0 ∈ m.map Prod.fst
    · obtain ⟨v, m', h1, _, h3, h4, _⟩ := lookupRemove_some m n0 hnd h0
      have hne : n ≠ n0 := fun he => hnmem (he ▸ h0)
      have : n ∉ m'.map Prod.fst := fun hmem' => hnmem ((h4 n).mp hmem').1
      simp only [List.mem_cons] at hn
      simp [statTakeFields, h1, ih m' h3 ⟨n, hn.resolve_left hne, this⟩]
    · simp [statTakeFields, lookupRemove_none m n0 h0]

/-- Helper: the StatResult take loop fails when an extra field remains. -/
theorem statTakeFields_extra (names : List String) :
    ∀ m : List (String × MontyObject), (m.map Prod.fst).Nodup →
      (∃ k ∈ m.map Prod.fst, k ∉ names) →
      statTakeFields names m = Option.none := by
  induction names with
  | nil =>
    intro m _ ⟨k, hk, _⟩
    cases m with
    | nil => simp at hk
    | cons p rest => rfl
  | cons n0 rest ih =>
    intro m hnd ⟨k, hk, hknot⟩
    simp only [List.mem_cons, not_or] at hknot
    by_cases h0 : n0 ∈ m.map Prod.fst
    · obtain ⟨v, m', h1, _, h3, h4, _⟩ := lookupRemove_some m n0 hnd h0
      have : k ∈ m'.map Prod.fst := (h4 k).mpr ⟨hk, hknot.1⟩
      simp [statTakeFields, h1, ih m' h3 ⟨k, this, hknot.2⟩]
    · simp [statTakeFields, lookupRemove_none m n0 h0]

/-- C5: resolving field order for an unordered named-tuple mapping — for
`StatResult` an exact match of the 10 canonical fields is required and the
canonical order `[st_mode, st_ino, st_dev, st_nlink, st_uid, st_gid,
st_size, st_atime, st_mtime, st_ctime]` is produced (a missing canonical
field or an extra field is a decode error); every other type name yields
the field names in lexicographically sorted order with their values. -/
theorem named_tuple_field_order (byName : List (String × MontyObject))
    (hnd : (byName.map Prod.fst).Nodup) :
    ((∀ n ∈ statResultFieldOrder, n ∈ byName.map Prod.fst) →
     (∀ k ∈ byName.map Prod.fst, k ∈ statResultFieldOrder) →
      orderNamedTupleFields "StatResult" byName =
        some (statResultFieldOrder,
          statResultFieldOrder.filterMap (fun n => byName.lookup n))) ∧
    ((∃ n ∈ statResultFieldOrder, n ∉ byName.map Prod.fst) →
      orderNamedTupleFields "StatResult" byName = Option.none) ∧
    ((∃ k ∈ byName.map Prod.fst, k ∉ statResultFieldOrder) →
      orderNamedTupleFields "StatResult" byName = Option.none) ∧
    (∀ tn, tn ≠ "StatResult" →
      orderNamedTupleFields tn byName =
        some (sortNames (byName.map Prod.fst),
          (sortNames (byName.map Prod.fst)).filterMap
            (fun n => byName.lookup n))) := by
  refine ⟨?_, ?_, ?_, ?_⟩
  · intro hall hsub
    rw [show orderNamedTupleFields "StatResult" byName =
        statTakeFields statResultFieldOrder byName from by
      simp [orderNamedTupleFields]]
    exact statTakeFields_exact statResultFieldOrder byName (by decide) hnd
      hall hsub
  · intro h
    rw [show orderNamedTupleFields "StatResult" byName =
        statTakeFields statResultFieldOrder byName from by
      simp [orderNamedTupleFields]]
    exact statTakeFields_missing statResultFieldOrder byName hnd h
  · intro h
    rw [show orderNamedTupleFields "StatResult" byName =
        statTakeFields statResultFieldOrder byName from by
      simp [orderNamedTupleFields]]
    exact statTakeFields_extra statResultFieldOrder byName hnd h
  · intro tn htn
    simp [orderNamedTupleFields, htn]

/-- Witness for C5: a scrambled full StatResult mapping resolves to the
canonical order; dropping st_ctime is an error; an unknown type name gets
lexicographic order. -/
theorem named_tuple_field_order_witness :
    orderNamedTupleFields "StatResult"
      [("st_ctime", .int 9), ("st_mode", .int 0), ("st_ino", .int 1),
       ("st_dev", .int 2), ("st_nlink", .int 3), ("st_uid", .int 4),
       ("st_gid", .int 5), ("st_size", .int 6), ("st_atime", .int 7),
       ("st_mtime", .int 8)] =
      some (statResultFieldOrder,
        statResultFieldOrder.filterMap (fun n =>
          [("st_ctime", MontyObject.int 9), ("st_mode", .int 0),
           ("st_ino", .int 1), ("st_dev", .int 2), ("st_nlink", .int 3),
           ("st_uid", .int 4), ("st_gid", .int 5), ("st_size", .int 6),
           ("st_atime", .int 7), ("st_mtime", .int 8)].lookup n)) ∧
    orderNamedTupleFields "StatResult"
      [("st_mode", .int 0), ("st_ino", .int 1)] = Option.none ∧
    orderNamedTupleFields "Point"
      [("y", .int 2), ("x", .int 1)] =
      some (sortNames ["y", "x"],
        (sortNames ["y", "x"]).filterMap (fun n =>
          [("y", MontyObject.int 2), ("x", .int 1)].lookup n)) :=
  ⟨(named_tuple_field_order _ (by decide)).1 (by decide) (by decide),
   (named_tuple_field_order _ (by decide)).2.1
     ⟨"st_dev", by decide, by decide⟩,
   (named_tuple_field_order _ (by decide)).2.2.2 "Point" (by decide)⟩

/-- Helper: a lookup succeeds exactly on present keys. -/
theorem lookup_isSome_iff {β : Type} (l : List (String × β)) (n : String) :
    (l.lookup n).isSome = true ↔ n ∈ l.map Prod.fst := by
  induction l with
  | nil => simp [List.lookup]
  | cons p rest ih =>
    obtain ⟨k, v⟩ := p
    by_cases hk : n = k
    · subst hk
      simp [List.lookup]
    · simp [List.lookup, beq_eq_false_iff_ne.mpr hk, ih, hk]

/-- Helper: lookup over an append tries the left part first. -/
theorem lookup_append {β : Type} (l₁ l₂ : List (String × β)) (n : String) :
    (l₁ ++ l₂).lookup n =
      match l₁.lookup n with
      | some v => some v
      | Option.none => l₂.lookup n := by
  induction l₁ with
  | nil => simp [List.lookup]
  | cons p rest ih =>
    obtain ⟨k, v⟩ := p
    by_cases hk : n = k
    · subst hk
      simp [List.lookup]
    · simp [List.lookup, beq_eq_false_iff_ne.mpr hk, ih]

/-- Helper: folds with pointwise equal step functions agree. -/
theorem foldl_congr_mem {α β : Type} (l : List α) :
    ∀ (f g : β → α → β) (acc : β), (∀ x ∈ l, ∀ a : β, f a x = g a x) →
      l.foldl f acc = l.foldl g acc := by
  induction l with
  | nil => intro f g acc _; rfl
  | cons x rest ih =>
    intro f g acc h
    rw [List.foldl_cons, List.foldl_cons, h x (by simp),
      ih f g (g acc x) (fun y hy a => h y (by simp [hy]) a)]

/-- Helper: folding over a filtered list is folding with a guarded step. -/
theorem foldl_filter {α β : Type} (p : α → Bool) (l : List α) :
    ∀ (f : β → α → β) (acc : β),
      (l.filter p).foldl f acc =
        l.foldl (fun a x => if p x then f a x else a) acc := by
  induction l with
  | nil => intro f acc; rfl
  | cons x rest ih =>
    intro f acc
    by_cases hx : p x
    · simp [List.filter_cons, hx, ih]
    · simp only [List.filter_cons]
      simp [hx, ih]

/-- Helper: an insert into the sorted name set is never empty. -/
theorem sortedInsert_ne_nil (n : String) (l : List String) :
    sortedInsert n l ≠ [] := by
  cases l with
  | nil => simp [sortedInsert]
  | cons m rest =>
    simp only [sortedInsert]
    split
    · simp
    · split <;> simp

/-- Helper: the sorted name set of a list is empty only for the empty
list. -/
theorem sortNames_eq_nil_iff (l : List String) : sortNames l = [] ↔ l = [] := by
  constructor
  · intro h
    cases l with
    | nil => rfl
    | cons n rest =>
      exfalso
      have aux : ∀ (l' : List String) (acc : List String), acc ≠ [] →
          l'.foldl (fun a x => sortedInsert x a) acc ≠ [] := by
        intro l'
        induction l' with
        | nil => intro acc hacc; simpa using hacc
        | cons x xs ih =>
          intro acc _
          rw [List.foldl_cons]
          exact ih (sortedInsert x acc) (sortedInsert_ne_nil x acc)
      exact aux rest (sortedInsert n []) (sortedInsert_ne_nil n []) (by
        simpa [sortNames] using h)
  · intro h
    subst h
    rfl

/-- Helper: membership form of the boolean `contains` test on names. -/
theorem contains_iff_mem (l : List String) (a : String) :
    l.contains a = true ↔ a ∈ l :=
  List.elem_iff

/-- Helper: with duplicate-free keys, removal is filtering the key out. -/
theorem lookupRemove_eq_filter (m : List (String × MontyObject)) (n : String)
    (hnd : (m.map Prod.fst).Nodup) :
    ∀ v m', lookupRemove n m = some (v, m') →
      m' = m.filter (fun p => p.1 != n) := by
  induction m with
  | nil => intro v m' h; simp [lookupRemove] at h
  | cons p rest ih =>
    obtain ⟨k, v0⟩ := p
    intro v m' h
    simp only [List.map_cons, List.nodup_cons] at hnd
    by_cases hk : k = n
    · subst hk
      obtain ⟨hv, hm'⟩ : v0 = v ∧ rest = m' := by
        simpa [lookupRemove] using h
      subst hm'
      have hself : rest.filter (fun p => p.1 != k) = rest :=
        List.filter_eq_self.mpr (fun p hp => by
          simp only [bne_iff_ne, ne_eq]
          exact fun he => hnd.1 (he ▸ List.mem_map.mpr ⟨p, hp, rfl⟩))
      rw [List.filter_cons]
      simp [hself]
    · rw [show lookupRemove n ((k, v0) :: rest) =
          (lookupRemove n rest).map (fun r => (r.1, (k, v0) :: r.2)) from by
        simp [lookupRemove, hk]] at h
      cases hrec : lookupRemove n rest with
      | none => rw [hrec] at h; simp at h
      | some r =>
        rw [hrec] at h
        obtain ⟨hv, hm⟩ : r.1 = v ∧ (k, v0) :: r.2 = m' := by simpa using h
        rw [List.filter_cons, if_pos (by simp [hk]), ← hm,
          ih hnd.2 r.1 r.2 (by rw [hrec])]

/-- Helper: the provided-inputs loop succeeds on duplicate-free names with
decodable values, producing the decoded name→value mapping. -/
theorem buildProvided_ok (inputs : List (String × ErlTerm)) :
    ∀ acc : List (String × MontyObject),
      (inputs.map Prod.fst).Nodup →
      (∀ x ∈ inputs.map Prod.fst, x ∉ acc.map Prod.fst) →
      (∀ p ∈ inputs, (decodeMontyObject p.2).isSome = true) →
      ∃ provided, buildProvided inputs acc = .ok provided ∧
        provided.map Prod.fst = acc.map Prod.fst ++ inputs.map Prod.fst ∧
        (∀ n ∈ acc.map Prod.fst, provided.lookup n = acc.lookup n) ∧
        (∀ n, n ∉ acc.map Prod.fst →
          provided.lookup n = (inputs.lookup n).bind decodeMontyObject) := by
  induction inputs with
  | nil =>
    intro acc _ _ _
    refine ⟨acc, rfl, by simp, fun n _ => rfl, fun n hn => ?_⟩
    have : acc.lookup n = Option.none := by
      cases hl : acc.lookup n with
      | none => rfl
      | some v =>
        exact absurd ((lookup_isSome_iff acc n).mp (by simp [hl])) hn
    simp [this, List.lookup]
  | cons p rest ih =>
    obtain ⟨name, t⟩ := p
    intro acc hnd hdisj hdec
    simp only [List.map_cons, List.nodup_cons] at hnd
    have hnot : name ∉ acc.map Prod.fst := hdisj name (by simp)
    have hlook : (acc.lookup name).isSome = false := by
      cases hl : acc.lookup name with
      | none => rfl
      | some v => exact absurd ((lookup_isSome_iff acc name).mp (by simp [hl])) hnot
    obtain ⟨v, hv⟩ := Option.isSome_iff_exists.mp (hdec (name, t) (by simp))
    have hdisj' : ∀ x ∈ rest.map Prod.fst, x ∉ (acc ++ [(name, v)]).map Prod.fst := by
      intro x hx
      simp only [List.map_append, List.mem_append, List.map_cons,
        List.map_nil, List.mem_singleton, not_or]
      refine ⟨hdisj x (by simp [hx]), ?_⟩
      intro he
      exact hnd.1 (he ▸ hx)
    obtain ⟨provided, h1, h2, h3, h4⟩ := ih (acc ++ [(name, v)]) hnd.2 hdisj'
      (fun q hq => hdec q (by simp [hq]))
    refine ⟨provided, ?_, ?_, ?_, ?_⟩
    · simp [buildProvided, hlook, hv, h1]
    · simp only [h2, List.map_append, List.map_cons, List.map_nil]
      simp
    · intro n hn
      rw [h3 n (by simp [hn]), lookup_append]
      cases hl : acc.lookup n with
      | none => exact absurd hn (by
          intro hmem
          have := (lookup_isSome_iff acc n).mpr hmem
          simp [hl] at this)
      | some w => rfl
    · intro n hn
      by_cases hne : n = name
      · subst hne
        have : provided.lookup n = (acc ++ [(n, v)]).lookup n :=
          h3 n (by simp)
        rw [this, lookup_append]
        have : acc.lookup n = Option.none := by
          cases hl : acc.lookup n with
          | none => rfl
          | some w => exact absurd ((lookup_isSome_iff acc n).mp (by simp [hl])) hn
        simp [this, List.lookup, hv]
      · have hn' : n ∉ (acc ++ [(name, v)]).map Prod.fst := by
          simp only [List.map_append, List.mem_append, List.map_cons,
            List.map_nil, not_or]
          exact ⟨hn, by simp [hne]⟩
        rw [h4 n hn', List.lookup]
        simp [beq_eq_false_iff_ne.mpr hne]

/-- Helper: the provided-inputs loop rejects when a supplied name repeats
(or already collides with the accumulator). -/
theorem buildProvided_err (inputs : List (String × ErlTerm)) :
    ∀ acc : List (String × MontyObject),
      ((∃ x ∈ inputs.map Prod.fst, x ∈ acc.map Prod.fst) ∨
        ¬ (inputs.map Prod.fst).Nodup) →
      ∃ e, buildProvided inputs acc = .error e := by
  induction inputs with
  | nil =>
    intro acc h
    rcases h with ⟨x, hx, _⟩ | h
    · simp at hx
    · simp at h
  | cons p rest ih =>
    obtain ⟨name, t⟩ := p
    intro acc h
    by_cases hmem : (acc.lookup name).isSome = true
    · exact ⟨.termErr ("duplicate input provided: " ++ name),
        by simp [buildProvided, hmem]⟩
    · have hnot : name ∉ acc.map Prod.fst := fun hc =>
        hmem ((lookup_isSome_iff acc name).mpr hc)
      cases hdec : decodeMontyObject t with
      | none => exact ⟨.badArg, by simp [buildProvided,
          Bool.eq_false_iff.mpr hmem, hdec]⟩
      | some v =>
        have h' : (∃ x ∈ rest.map Prod.fst,
            x ∈ (acc ++ [(name, v)]).map Prod.fst) ∨
            ¬ (rest.map Prod.fst).Nodup := by
          rcases h with ⟨x, hx, hacc⟩ | h
          · simp only [List.map_cons, List.mem_cons] at hx
            rcases hx with hx | hx
            · subst hx
              exact absurd hacc hnot
            · exact Or.inl ⟨x, hx, by simp [hacc]⟩
          · simp only [List.map_cons, List.nodup_cons, not_and_or] at h
            rcases h with h | h
            · rw [not_not] at h
              exact Or.inl ⟨name, h, by simp⟩
            · exact Or.inr h
        obtain ⟨e, he⟩ := ih (acc ++ [(name, v)]) h'
        exact ⟨e, by simp [buildProvided, Bool.eq_false_iff.mpr hmem, hdec, he]⟩

/-- Helper: the duplicate-declared-name check passes duplicate-free fresh
names. -/
theorem checkDupNames_ok (l : List String) :
    ∀ seen, l.Nodup → (∀ x ∈ l, x ∉ seen) → checkDupNames l seen = .ok () := by
  induction l with
  | nil => intro seen _ _; rfl
  | cons n rest ih =>
    intro seen hnd hfresh
    simp only [List.nodup_cons] at hnd
    have hc : seen.contains n = false := by
      rw [Bool.eq_false_iff]
      intro hcon
      exact hfresh n (by simp) ((contains_iff_mem seen n).mp hcon)
    rw [show checkDupNames (n :: rest) seen =
        if seen.contains n then
          .error (.termErr ("runner has duplicate input name: " ++ n))
        else checkDupNames rest (n :: seen) from rfl,
      hc, if_neg (by simp)]
    refine ih (n :: seen) hnd.2 ?_
    intro x hx
    simp only [List.mem_cons, not_or]
    exact ⟨fun he => hnd.1 (he ▸ hx), hfresh x (by simp [hx])⟩

/-- Helper: the duplicate-declared-name check rejects a duplicate (or a name
already seen). -/
theorem checkDupNames_err (l : List String) :
    ∀ seen, ((∃ x ∈ l, x ∈ seen) ∨ ¬ l.Nodup) →
      ∃ n, checkDupNames l seen =
        .error (.termErr ("runner has duplicate input name: " ++ n)) := by
  induction l with
  | nil =>
    intro seen h
    rcases h with ⟨x, hx, _⟩ | h
    · simp at hx
    · simp at h
  | cons n rest ih =>
    intro seen h
    have hunfold : checkDupNames (n :: rest) seen =
        if seen.contains n then
          .error (.termErr ("runner has duplicate input name: " ++ n))
        else checkDupNames rest (n :: seen) := rfl
    by_cases hc : seen.contains n = true
    · exact ⟨n, by rw [hunfold, hc, if_pos rfl]⟩
    · have hnot : n ∉ seen := fun hmem => hc ((contains_iff_mem seen n).mpr hmem)
      have h' : (∃ x ∈ rest, x ∈ n :: seen) ∨ ¬ rest.Nodup := by
        rcases h with ⟨x, hx, hseen⟩ | h
        · simp only [List.mem_cons] at hx
          rcases hx with hx | hx
          · exact absurd (hx ▸ hseen) hnot
          · exact Or.inl ⟨x, hx, by simp [hseen]⟩
        · simp only [List.nodup_cons, not_and_or] at h
          rcases h with h | h
          · rw [not_not] at h
            exact Or.inl ⟨n, h, by simp⟩
          · exact Or.inr h
      obtain ⟨m, hm⟩ := ih (n :: seen) h'
      refine ⟨m, ?_⟩
      rw [hunfold, Bool.eq_false_iff.mpr hc, if_neg (by simp), hm]

/-- Helper: full characterization of the reordering loop over duplicate-free
declared names and a duplicate-free provided mapping. -/
theorem collectOrdered_spec (expected : List String) :
    ∀ (provided : List (String × MontyObject)) (missing : List String)
      (ordered : List MontyObject),
      expected.Nodup → (provided.map Prod.fst).Nodup →
      collectOrdered expected provided missing ordered =
        (expected.foldl
          (fun acc n => if n ∈ provided.map Prod.fst then acc
            else sortedInsert n acc) missing,
         provided.filter (fun p => !(expected.contains p.1)),
         ordered ++ expected.filterMap (fun n => provided.lookup n)) := by
  induction expected with
  | nil =>
    intro provided missing ordered _ _
    have hself : provided.filter (fun p => !(List.contains [] p.1)) = provided :=
      List.filter_eq_self.mpr (fun p _ => by simp [List.contains_nil])
    simp only [collectOrdered, List.foldl_nil, List.filterMap_nil,
      List.append_nil, hself]
  | cons n rest ih =>
    intro provided missing ordered hnd hpnd
    simp only [List.nodup_cons] at hnd
    by_cases hmem : n ∈ provided.map Prod.fst
    · obtain ⟨v, m', h1, h2, h3, h4, h5⟩ := lookupRemove_some provided n hpnd hmem
      have hfilter := lookupRemove_eq_filter provided n hpnd v m' h1
      rw [show collectOrdered (n :: rest) provided missing ordered =
          collectOrdered rest m' missing (ordered ++ [v]) from by
        simp [collectOrdered, h1]]
      rw [ih m' missing (ordered ++ [v]) hnd.2 h3]
      refine congrArg₂ Prod.mk ?_ (congrArg₂ Prod.mk ?_ ?_)
      · rw [List.foldl_cons, if_pos hmem]
        apply foldl_congr_mem
        intro x hx acc
        have hiff : x ∈ m'.map Prod.fst ↔ x ∈ provided.map Prod.fst := by
          rw [h4 x]
          exact ⟨fun h => h.1, fun h => ⟨h, fun he => hnd.1 (he ▸ hx)⟩⟩
        simp only [hiff]
      · rw [hfilter, List.filter_filter]
        apply List.filter_congr
        intro p hp
        by_cases hpn : p.1 = n
        · simp [hpn, List.contains_cons]
        · simp [hpn, List.contains_cons]
      · rw [List.filterMap_cons, h2]
        have htail : rest.filterMap (fun k => m'.lookup k) =
            rest.filterMap (fun k => provided.lookup k) :=
          List.filterMap_congr (fun k hk =>
            h5 k (fun he => hnd.1 (he ▸ hk)))
        rw [htail]
        simp
    · rw [show collectOrdered (n :: rest) provided missing ordered =
          collectOrdered rest provided (sortedInsert n missing) ordered from by
        simp [collectOrdered, lookupRemove_none provided n hmem]]
      rw [ih provided (sortedInsert n missing) ordered hnd.2 hpnd]
      refine congrArg₂ Prod.mk ?_ (congrArg₂ Prod.mk ?_ ?_)
      · rw [List.foldl_cons, if_neg hmem]
      · apply List.filter_congr
        intro p hp
        have : p.1 ≠ n := fun he =>
          hmem (he ▸ List.mem_map.mpr ⟨p, hp, rfl⟩)
        simp [List.contains_cons, this]
      · rw [List.filterMap_cons]
        have : provided.lookup n = Option.none := by
          cases hl : provided.lookup n with
          | none => rfl
          | some w =>
            exact absurd ((lookup_isSome_iff provided n).mp (by simp [hl])) hmem
        rw [this]

/-- Helper: keys of a key-filtered mapping are the filtered keys. -/
theorem map_fst_filter_fst {α β : Type} (q : α → Bool) (l : List (α × β)) :
    (l.filter (fun p => q p.1)).map Prod.fst = (l.map Prod.fst).filter q := by
  induction l with
  | nil => rfl
  | cons p rest ih =>
    by_cases hq : q p.1 <;> simp [List.filter_cons, hq, ih]

/-- C3: input reconciliation — empty declared plus empty supplied succeeds
with an empty result; empty declared with non-empty supplied is rejected;
duplicate declared names are rejected as a configuration error; duplicate
supplied names are rejected; a missing declared name yields an error naming
the full sorted missing-name list; an undeclared supplied name (with all
declared names present) yields an error naming the full sorted extra-name
list; otherwise the supplied values are returned reordered into declared
order. -/
theorem input_reconciliation :
    (decodeInputs [] [] = .ok []) ∧
    (∀ inputs : List (String × ErlTerm), inputs ≠ [] →
      decodeInputs inputs [] = .error (.termErr
        ("unexpected inputs: expected none, got " ++ toString inputs.length))) ∧
    (∀ (inputs : List (String × ErlTerm)) (expected : List String),
      ¬ expected.Nodup →
      ∃ n, decodeInputs inputs expected = .error (.termErr
        ("runner has duplicate input name: " ++ n))) ∧
    (∀ (inputs : List (String × ErlTerm)) (expected : List String),
      ¬ (inputs.map Prod.fst).Nodup →
      ∃ e, decodeInputs inputs expected = .error e) ∧
    (∀ (inputs : List (String × ErlTerm)) (expected : List String),
      expected.Nodup → (inputs.map Prod.fst).Nodup →
      (∀ p ∈ inputs, (decodeMontyObject p.2).isSome = true) →
      expected.filter (fun n => !((inputs.map Prod.fst).contains n)) ≠ [] →
      decodeInputs inputs expected = .error (.termErr
        ("missing required inputs: " ++ String.intercalate ", "
          (sortNames (expected.filter
            (fun n => !((inputs.map Prod.fst).contains n))))))) ∧
    (∀ (inputs : List (String × ErlTerm)) (expected : List String),
      expected ≠ [] →
      expected.Nodup → (inputs.map Prod.fst).Nodup →
      (∀ p ∈ inputs, (decodeMontyObject p.2).isSome = true) →
      (∀ n ∈ expected, n ∈ inputs.map Prod.fst) →
      (inputs.map Prod.fst).filter (fun k => !(expected.contains k)) ≠ [] →
      decodeInputs inputs expected = .error (.termErr
        ("unexpected inputs: " ++ String.intercalate ", "
          (sortNames ((inputs.map Prod.fst).filter
            (fun k => !(expected.contains k))))))) ∧
    (∀ (inputs : List (String × ErlTerm)) (expected : List String),
      expected.Nodup → (inputs.map Prod.fst).Nodup →
      (∀ p ∈ inputs, (decodeMontyObject p.2).isSome = true) →
      (∀ n ∈ expected, n ∈ inputs.map Prod.fst) →
      (∀ k ∈ inputs.map Prod.fst, k ∈ expected) →
      decodeInputs inputs expected =
        .ok (expected.filterMap
          (fun n => (inputs.lookup n).bind decodeMontyObject))) := by
  have hisEmpty : ∀ {α : Type} (l : List α), l ≠ [] → l.isEmpty = false := by
    intro α l hl
    cases l with
    | nil => exact absurd rfl hl
    | cons a as => rfl
  have hfoldConv : ∀ (expected : List String)
      (provided : List (String × MontyObject)) (inputs : List (String × ErlTerm)),
      provided.map Prod.fst = inputs.map Prod.fst →
      expected.foldl (fun acc n => if n ∈ provided.map Prod.fst then acc
        else sortedInsert n acc) [] =
      sortNames (expected.filter
        (fun n => !((inputs.map Prod.fst).contains n))) := by
    intro expected provided inputs hkeys
    rw [show sortNames (expected.filter
        (fun n => !((inputs.map Prod.fst).contains n))) =
      (expected.filter (fun n => !((inputs.map Prod.fst).contains n))).foldl
        (fun acc n => sortedInsert n acc) [] from rfl]
    rw [foldl_filter]
    apply foldl_congr_mem
    intro x _ acc
    by_cases hx : x ∈ inputs.map Prod.fst
    · have hc : (inputs.map Prod.fst).contains x = true :=
        (contains_iff_mem _ _).mpr hx
      rw [if_pos (hkeys ▸ hx), if_neg (by rw [hc]; decide)]
    · have hc : (inputs.map Prod.fst).contains x = false := by
        rw [Bool.eq_false_iff]
        exact fun h => hx ((contains_iff_mem _ _).mp h)
      rw [if_neg (hkeys ▸ hx), if_pos (by rw [hc]; decide)]
  constructor
  · rfl
  constructor
  · intro inputs hne
    have : inputs.isEmpty = false := by
      cases inputs with
      | nil => exact absurd rfl hne
      | cons a as => rfl
    simp [decodeInputs, this]
  constructor
  · intro inputs expected hnd
    have hexp : expected ≠ [] := fun h => hnd (h ▸ List.nodup_nil)
    obtain ⟨n, hn⟩ := checkDupNames_err expected [] (Or.inr hnd)
    exact ⟨n, by simp [decodeInputs, hisEmpty expected hexp, hn]⟩
  constructor
  · intro inputs expected hnd
    by_cases hexp : expected = []
    · subst hexp
      have hne : inputs ≠ [] := by
        intro h
        subst h
        exact hnd (by simp)
      have : inputs.isEmpty = false := by
        cases inputs with
        | nil => exact absurd rfl hne
        | cons a as => rfl
      exact ⟨.termErr ("unexpected inputs: expected none, got " ++
        toString inputs.length), by simp [decodeInputs, this]⟩
    · by_cases hend : expected.Nodup
      · have hcheck := checkDupNames_ok expected [] hend (by simp)
        obtain ⟨e, he⟩ := buildProvided_err inputs [] (Or.inr hnd)
        exact ⟨e, by simp [decodeInputs, hisEmpty expected hexp, hcheck, he]⟩
      · obtain ⟨n, hn⟩ := checkDupNames_err expected [] (Or.inr hend)
        exact ⟨.termErr ("runner has duplicate input name: " ++ n),
          by simp [decodeInputs, hisEmpty expected hexp, hn]⟩
  have hmain : ∀ (inputs : List (String × ErlTerm)) (expected : List String),
      expected ≠ [] → expected.Nodup → (inputs.map Prod.fst).Nodup →
      (∀ p ∈ inputs, (decodeMontyObject p.2).isSome = true) →
      ∃ provided : List (String × MontyObject),
        provided.map Prod.fst = inputs.map Prod.fst ∧
        (∀ n, (inputs.lookup n).bind decodeMontyObject = provided.lookup n) ∧
        decodeInputs inputs expected =
          (if !(sortNames (expected.filter
              (fun n => !((inputs.map Prod.fst).contains n)))).isEmpty then
            .error (.termErr ("missing required inputs: " ++
              String.intercalate ", " (sortNames (expected.filter
                (fun n => !((inputs.map Prod.fst).contains n))))))
          else if !(provided.filter (fun p => !(expected.contains p.1))).isEmpty then
            .error (.termErr ("unexpected inputs: " ++
              String.intercalate ", " (sortNames ((provided.filter
                (fun p => !(expected.contains p.1))).map Prod.fst))))
          else .ok (expected.filterMap (fun n => provided.lookup n))) := by
    intro inputs expected hexp hend hinnd hdec
    have hcheck := checkDupNames_ok expected [] hend (by simp)
    obtain ⟨provided, hbp, hkeys, _, hlook⟩ :=
      buildProvided_ok inputs [] hinnd (by simp) hdec
    simp only [List.map_nil, List.nil_append] at hkeys
    have hpnd : (provided.map Prod.fst).Nodup := hkeys ▸ hinnd
    have hco := collectOrdered_spec expected provided [] [] hend hpnd
    refine ⟨provided, hkeys, fun n => (hlook n (by simp)).symm, ?_⟩
    rw [show decodeInputs inputs expected =
        (let r := collectOrdered expected provided [] []
         if !r.1.isEmpty then
           .error (.termErr ("missing required inputs: " ++
             String.intercalate ", " r.1))
         else if !r.2.1.isEmpty then
           .error (.termErr ("unexpected inputs: " ++
             String.intercalate ", " (sortNames (r.2.1.map Prod.fst))))
         else .ok r.2.2) from by
      simp [decodeInputs, hisEmpty expected hexp, hcheck, hbp]]
    rw [hco]
    simp only [List.nil_append]
    rw [hfoldConv expected provided inputs hkeys]
  constructor
  · intro inputs expected hend hinnd hdec hmiss
    have hexp : expected ≠ [] := by
      intro h
      subst h
      exact hmiss rfl
    obtain ⟨provided, _, _, heq⟩ := hmain inputs expected hexp hend hinnd hdec
    have hne : sortNames (expected.filter
        (fun n => !((inputs.map Prod.fst).contains n))) ≠ [] :=
      fun h => hmiss ((sortNames_eq_nil_iff _).mp h)
    rw [heq, if_pos (by rw [hisEmpty _ hne]; decide)]
  constructor
  · intro inputs expected hexp hend hinnd hdec hall hextra
    obtain ⟨provided, hkeys, _, heq⟩ := hmain inputs expected hexp hend hinnd hdec
    have hmfilter : expected.filter
        (fun n => !((inputs.map Prod.fst).contains n)) = [] := by
      rw [List.filter_eq_nil_iff]
      intro n hn
      simp only [Bool.not_eq_true', Bool.not_eq_true]
      rw [Bool.not_eq_false]
      exact (contains_iff_mem _ n).mpr (hall n hn)
    have hremkeys : (provided.filter (fun p => !(expected.contains p.1))).map
        Prod.fst = (inputs.map Prod.fst).filter (fun k => !(expected.contains k)) := by
      rw [← hkeys]
      exact map_fst_filter_fst (fun k => !(expected.contains k)) provided
    have hremne : provided.filter (fun p => !(expected.contains p.1)) ≠ [] := by
      intro h
      rw [← hremkeys] at hextra
      exact hextra (by rw [h]; rfl)
    rw [heq, hmfilter, if_neg (by decide),
      if_pos (by rw [hisEmpty _ hremne]; decide), hremkeys]
  · intro inputs expected hend hinnd hdec hall hsub
    by_cases hexp : expected = []
    · subst hexp
      have : inputs = [] := by
        cases inputs with
        | nil => rfl
        | cons p rest => exact absurd (hsub p.1 (by simp)) (by simp)
      subst this
      rfl
    · obtain ⟨provided, hkeys, hlook, heq⟩ :=
        hmain inputs expected hexp hend hinnd hdec
      have hmfilter : expected.filter
          (fun n => !((inputs.map Prod.fst).contains n)) = [] := by
        rw [List.filter_eq_nil_iff]
        intro n hn
        simp only [Bool.not_eq_true', Bool.not_eq_true]
        rw [Bool.not_eq_false]
        exact (contains_iff_mem _ n).mpr (hall n hn)
      have hrem : provided.filter (fun p => !(expected.contains p.1)) = [] := by
        rw [List.filter_eq_nil_iff]
        intro p hp
        simp only [Bool.not_eq_true', Bool.not_eq_true]
        rw [Bool.not_eq_false]
        refine (contains_iff_mem _ p.1).mpr (hsub p.1 ?_)
        rw [← hkeys]
        exact List.mem_map.mpr ⟨p, hp, rfl⟩
      rw [heq, hmfilter, if_neg (by decide), if_neg (by rw [hrem]; decide)]
      exact congrArg Except.ok
        (List.filterMap_congr (fun n _ => hlook n)).symm

/-- Witness for C3: declared ["a","b"] with supplied {"a":1} reports exactly
"b" missing; supplied {"a":1,"b":2,"c":3} reports exactly "c" extra; supplied
{"b":2,"a":1} succeeds reordered into declared order. -/
theorem input_reconciliation_witness :
    decodeInputs [("a", .int 1)] ["a", "b"] =
      .error (.termErr "missing required inputs: b") ∧
    decodeInputs [("a", .int 1), ("b", .int 2), ("c", .int 3)] ["a", "b"] =
      .error (.termErr "unexpected inputs: c") ∧
    decodeInputs [("b", .int 2), ("a", .int 1)] ["a", "b"] =
      .ok [.int 1, .int 2] := by
  refine ⟨?_, ?_, ?_⟩
  · have h := input_reconciliation.2.2.2.2.1 [("a", ErlTerm.int 1)] ["a", "b"]
      (by decide) (by decide)
      (by
        intro p hp
        simp only [List.mem_singleton] at hp
        subst hp
        simp [decodeMontyObject])
      (by decide)
    rw [h]
    rfl
  · have h := input_reconciliation.2.2.2.2.2.1
      [("a", ErlTerm.int 1), ("b", ErlTerm.int 2), ("c", ErlTerm.int 3)]
      ["a", "b"] (by decide) (by decide) (by decide)
      (by
        intro p hp
        simp only [List.mem_cons, List.not_mem_nil, or_false] at hp
        rcases hp with h | h | h <;> subst h <;> simp [decodeMontyObject])
      (by decide) (by decide)
    rw [h]
    rfl
  · have h := input_reconciliation.2.2.2.2.2.2
      [("b", ErlTerm.int 2), ("a", ErlTerm.int 1)] ["a", "b"]
      (by decide) (by decide)
      (by
        intro p hp
        simp only [List.mem_cons, List.not_mem_nil, or_false] at hp
        rcases hp with h | h <;> subst h <;> simp [decodeMontyObject])
      (by decide) (by decide)
    rw [h]
    have hd1 : decodeMontyObject (ErlTerm.int 1) = some (MontyObject.int 1) := by
      rw [show decodeMontyObject (ErlTerm.int 1) =
          some (if fitsI64 1 then MontyObject.int 1 else MontyObject.bigInt 1)
        from by simp [decodeMontyObject]]
      rw [if_pos (show fitsI64 1 = true from rfl)]
    have hd2 : decodeMontyObject (ErlTerm.int 2) = some (MontyObject.int 2) := by
      rw [show decodeMontyObject (ErlTerm.int 2) =
          some (if fitsI64 2 then MontyObject.int 2 else MontyObject.bigInt 2)
        from by simp [decodeMontyObject]]
      rw [if_pos (show fitsI64 2 = true from rfl)]
    simp only [List.filterMap_cons, List.filterMap_nil,
      show List.lookup "a" [("b", ErlTerm.int 2), ("a", ErlTerm.int 1)] =
        some (ErlTerm.int 1) from rfl,
      show List.lookup "b" [("b", ErlTerm.int 2), ("a", ErlTerm.int 1)] =
        some (ErlTerm.int 2) from rfl,
      Option.some_bind, hd1, hd2]

/-- C6: external-call failure decoding — a message-only error yields the
generic runtime-error tag with that message; an explicit (tag, message)
pair parses its tag by exact match first, then the snake_case → PascalCase
conversion, then the generic runtime-error fallback; for every input string
the parse yields some member of the engine's error-tag set and never an
error. -/
theorem external_error_tag_parsing :
    (∀ s, s ∈ knownExcTypes → parseExcType s = s) ∧
    (∀ s, s ∉ knownExcTypes → pascalCase s ∈ knownExcTypes →
      parseExcType s = pascalCase s) ∧
    (∀ s, s ∉ knownExcTypes → pascalCase s ∉ knownExcTypes →
      parseExcType s = "RuntimeError") ∧
    (∀ s, parseExcType s ∈ knownExcTypes) ∧
    (∀ msg, decodeExternalResult (.tuple [.atom "error", .binary (.str msg)]) =
      some (.err "RuntimeError" (some msg))) ∧
    (∀ tagStr msg, decodeExternalResult
        (.tuple [.atom "error", .binary (.str tagStr), .binary (.str msg)]) =
      some (.err (parseExcType tagStr) (some msg))) := by
  have h1 : ∀ s, s ∈ knownExcTypes → parseExcType s = s := by
    intro s h
    simp [parseExcType, excTypeFromStr, h]
  have h2 : ∀ s, s ∉ knownExcTypes → pascalCase s ∈ knownExcTypes →
      parseExcType s = pascalCase s := by
    intro s h h'
    simp [parseExcType, excTypeFromStr, h, h']
  have h3 : ∀ s, s ∉ knownExcTypes → pascalCase s ∉ knownExcTypes →
      parseExcType s = "RuntimeError" := by
    intro s h h'
    simp [parseExcType, excTypeFromStr, h, h']
  refine ⟨h1, h2, h3, ?_, ?_, ?_⟩
  · intro s
    by_cases he : s ∈ knownExcTypes
    · rw [h1 s he]; exact he
    · by_cases hp : pascalCase s ∈ knownExcTypes
      · rw [h2 s he hp]; exact hp
      · rw [h3 s he hp]; decide
  · intro msg
    simp [decodeExternalResult, stringDecode]
  · intro tagStr msg
    simp [decodeExternalResult, stringDecode]

/-- Witness for C6: the snake_case tag "value_error" is not in the engine's
tag set, converts to "ValueError" which is, and parses to it; an unknown
tag falls back to "RuntimeError"; an exact tag parses to itself. -/
theorem external_error_tag_parsing_witness :
    parseExcType "value_error" = pascalCase "value_error" ∧
    parseExcType "no_such_tag" = "RuntimeError" ∧
    parseExcType "KeyError" = "KeyError" :=
  ⟨external_error_tag_parsing.2.1 "value_error" (by decide) (by decide),
   external_error_tag_parsing.2.2.1 "no_such_tag" (by decide) (by decide),
   external_error_tag_parsing.1 "KeyError" (by decide)⟩

/-- Helper: elementwise round-tripping lifts to encoded lists. -/
theorem decodeObjList_encodeObjList (items : List MontyObject)
    (ih : ∀ x ∈ items, decodeMontyObject (encodeMontyObject x) = some x) :
    decodeObjList (encodeObjList items) = some items := by
  induction items with
  | nil => simp [encodeObjList, decodeObjList]
  | cons x rest ihr =>
    simp [encodeObjList, decodeObjList, ih x (by simp),
      ihr (fun y hy => ih y (by simp [hy]))]

/-- Helper: elementwise round-tripping lifts to encoded dictionary pairs. -/
theorem decodeObjPairs_encodeObjPairs (pairs : List (MontyObject × MontyObject))
    (ihk : ∀ p ∈ pairs, decodeMontyObject (encodeMontyObject p.1) = some p.1)
    (ihv : ∀ p ∈ pairs, decodeMontyObject (encodeMontyObject p.2) = some p.2) :
    decodeObjPairs (encodeObjPairs pairs) = some pairs := by
  induction pairs with
  | nil => simp [encodeObjPairs, decodeObjPairs]
  | cons p rest ihr =>
    obtain ⟨k, v⟩ := p
    simp [encodeObjPairs, decodeObjPairs, ihk (k, v) (by simp),
      ihv (k, v) (by simp),
      ihr (fun q hq => ihk q (by simp [hq])) (fun q hq => ihv q (by simp [hq]))]

/-- Helper: elementwise round-tripping lifts to MapSet member entries. -/
theorem decodeSetMembers_encoded (items : List MontyObject)
    (ih : ∀ x ∈ items, decodeMontyObject (encodeMontyObject x) = some x) :
    decodeSetMembers ((encodeObjList items).map (fun m => (m, mapsetPlaceholder))) =
      some items := by
  induction items with
  | nil => simp [encodeObjList, decodeSetMembers]
  | cons x rest ihr =>
    simp [encodeObjList, decodeSetMembers, ih x (by simp),
      ihr (fun y hy => ih y (by simp [hy]))]

/-- Helper: elementwise round-tripping lifts to encoded named-tuple field
pair lists of matching length. -/
theorem decodeFieldPairs_encoded (fns : List String) :
    ∀ vs : List MontyObject, fns.length = vs.length →
      (∀ x ∈ vs, decodeMontyObject (encodeMontyObject x) = some x) →
      decodeFieldPairs (encodeNamedTupleFields fns vs) = some (fns, vs) := by
  induction fns with
  | nil =>
    intro vs hlen _
    cases vs with
    | nil => simp [encodeNamedTupleFields, decodeFieldPairs]
    | cons v vs' => simp at hlen
  | cons n ns ih =>
    intro vs hlen ihv
    cases vs with
    | nil => simp at hlen
    | cons v vs' =>
      simp only [List.length_cons, Nat.succ.injEq] at hlen
      simp [encodeNamedTupleFields, decodeFieldPairs, nameTermStr,
        ihv v (by simp), ih vs' hlen (fun y hy => ihv y (by simp [hy]))]

/-- Helper: every atom an encoded faithful value can produce is one of the
four scalar atoms. -/
theorem encode_atom_name (v : MontyObject) (hF : Faithful v) (s : String)
    (h : encodeMontyObject v = .atom s) :
    s = "nil" ∨ s = "true" ∨ s = "false" ∨ s = "ellipsis" := by
  cases hF with
  | none =>
    simp only [encodeMontyObject, ErlTerm.atom.injEq] at h
    exact Or.inl h.symm
  | bool b =>
    cases b <;> simp only [encodeMontyObject, ErlTerm.atom.injEq] at h
    · exact Or.inr (Or.inr (Or.inl (by simp [← h])))
    · exact Or.inr (Or.inl (by simp [← h]))
  | ellipsis =>
    simp only [encodeMontyObject, ErlTerm.atom.injEq] at h
    exact Or.inr (Or.inr (Or.inr h.symm))
  | int i hi => simp [encodeMontyObject] at h
  | bigInt i hi => simp [encodeMontyObject] at h
  | float bits => simp [encodeMontyObject] at h
  | str s' => simp [encodeMontyObject] at h
  | bytes bs => simp [encodeMontyObject] at h
  | list items h' => simp [encodeMontyObject] at h
  | tuple items h' => simp [encodeMontyObject] at h
  | dict pairs h1 h2 h3 => simp [encodeMontyObject] at h
  | set items h1 h2 => simp [encodeMontyObject, encodeMapset] at h
  | path p => simp [encodeMontyObject] at h
  | namedTuple tn fns vs h1 h2 h3 => simp [encodeMontyObject] at h

/-- Helper: a term that is not an atom compares unequal to every atom. -/
theorem beq_atom_of_nonatom (t : ErlTerm) (s : String)
    (h : ∀ s', t ≠ .atom s') : t.beq (.atom s) = false := by
  cases t with
  | atom s' => exact absurd rfl (h s')
  | int n => rw [ErlTerm.beq.eq_def]
  | float b => rw [ErlTerm.beq.eq_def]
  | binary b => rw [ErlTerm.beq.eq_def]
  | tuple es => rw [ErlTerm.beq.eq_def]
  | list es => rw [ErlTerm.beq.eq_def]
  | map m => rw [ErlTerm.beq.eq_def]
  | ref i => rw [ErlTerm.beq.eq_def]

/-- Helper: a lookup over entries whose keys all compare unequal to the
requested key fails. -/
theorem mapGet_none (entries : List (ErlTerm × ErlTerm)) (k : ErlTerm)
    (h : ∀ p ∈ entries, p.1.beq k = false) : mapGet entries k = Option.none := by
  induction entries with
  | nil => rfl
  | cons p rest ih =>
    obtain ⟨k', v⟩ := p
    rw [mapGet, if_neg (by simp [h (k', v) (by simp)]),
      ih (fun q hq => h q (by simp [hq]))]

/-- Helper: the encodings of pairwise-distinct round-tripping values are
pairwise distinct under term equality. -/
theorem encoded_pairwise_ne (items : List MontyObject)
    (hnd : items.Nodup)
    (ih : ∀ x ∈ items, decodeMontyObject (encodeMontyObject x) = some x) :
    (items.map encodeMontyObject).Pairwise (fun a b => a.beq b = false) := by
  rw [List.pairwise_map]
  rw [List.Nodup] at hnd
  refine hnd.imp_of_mem ?_
  intro a b ha hb hne
  apply erlTerm_beq_false_of_ne
  intro habs
  apply hne
  have h1 := ih a ha
  have h2 := ih b hb
  rw [habs, h2] at h1
  have : b = a := by simpa using h1
  exact this.symm

/-- Helper: the encoding of a faithful value never compares equal to the
`__struct__` atom key. -/
theorem encoded_key_not_struct (k : MontyObject) (hF : Faithful k) :
    (encodeMontyObject k).beq (.atom "__struct__") = false := by
  cases hek : encodeMontyObject k
  case atom s =>
    rcases encode_atom_name k hF s hek with rfl | rfl | rfl | rfl <;>
      simp [ErlTerm.beq]
  all_goals exact beq_atom_of_nonatom _ _ (fun s' => by simp)

/-- Helper: a tuple of encoded faithful values decodes through the
regular-tuple path (no tagged-wrapper pattern can match it). -/
theorem decode_encoded_tuple (items : List MontyObject)
    (hF : ∀ x ∈ items, Faithful x) :
    decodeMontyObject (.tuple (encodeObjList items)) =
      (decodeObjList (encodeObjList items)).map MontyObject.tuple := by
  rcases items with _ | ⟨x, xs⟩
  · simp only [encodeObjList]
    rw [decodeMontyObject.eq_def]
  · simp only [encodeObjList]
    cases henc : encodeMontyObject x with
    | atom s =>
      rcases encode_atom_name x (hF x (by simp)) s henc with rfl | rfl | rfl | rfl <;>
        rcases xs with _ | ⟨y, _ | ⟨z, _ | ⟨w, rest⟩⟩⟩ <;>
        (simp only [encodeObjList]; rw [decodeMontyObject.eq_def];
         all_goals simp)
    | int n =>
      rcases xs with _ | ⟨y, _ | ⟨z, _ | ⟨w, rest⟩⟩⟩ <;>
        (simp only [encodeObjList]; rw [decodeMontyObject.eq_def];
         all_goals simp)
    | float b =>
      rcases xs with _ | ⟨y, _ | ⟨z, _ | ⟨w, rest⟩⟩⟩ <;>
        (simp only [encodeObjList]; rw [decodeMontyObject.eq_def];
         all_goals simp)
    | binary b =>
      rcases xs with _ | ⟨y, _ | ⟨z, _ | ⟨w, rest⟩⟩⟩ <;>
        (simp only [encodeObjList]; rw [decodeMontyObject.eq_def];
         all_goals simp)
    | tuple es =>
      rcases xs with _ | ⟨y, _ | ⟨z, _ | ⟨w, rest⟩⟩⟩ <;>
        (simp only [encodeObjList]; rw [decodeMontyObject.eq_def];
         all_goals simp)
    | list es =>
      rcases xs with _ | ⟨y, _ | ⟨z, _ | ⟨w, rest⟩⟩⟩ <;>
        (simp only [encodeObjList]; rw [decodeMontyObject.eq_def];
         all_goals simp)
    | map m =>
      rcases xs with _ | ⟨y, _ | ⟨z, _ | ⟨w, rest⟩⟩⟩ <;>
        (simp only [encodeObjList]; rw [decodeMontyObject.eq_def];
         all_goals simp)
    | ref i =>
      rcases xs with _ | ⟨y, _ | ⟨z, _ | ⟨w, rest⟩⟩⟩ <;>
        (simp only [encodeObjList]; rw [decodeMontyObject.eq_def];
         all_goals simp)

/-- Helper: decoding the encoding of a faithful canonical value reproduces
it exactly. -/
theorem faithful_roundtrip :
    ∀ v : MontyObject, Faithful v →
      decodeMontyObject (encodeMontyObject v) = some v := by
  intro v hF
  induction hF with
  | none => simp [encodeMontyObject, decodeMontyObject]
  | bool b => cases b <;> simp [encodeMontyObject, decodeMontyObject]
  | int i h => simp [encodeMontyObject, decodeMontyObject, h]
  | bigInt i h => simp [encodeMontyObject, decodeMontyObject, h]
  | float bits => simp [encodeMontyObject, decodeMontyObject]
  | str s => simp [encodeMontyObject, decodeMontyObject]
  | bytes bs =>
    simp [encodeMontyObject, decodeMontyObject, BinPayload.toBytes]
  | ellipsis => simp [encodeMontyObject, decodeMontyObject]
  | path p => simp [encodeMontyObject, decodeMontyObject]
  | list items h ih =>
    rw [show encodeMontyObject (.list items) = .list (encodeObjList items)
      from by simp [encodeMontyObject]]
    simp [decodeMontyObject, decodeObjList_encodeObjList items ih]
  | tuple items h ih =>
    rw [show encodeMontyObject (.tuple items) = .tuple (encodeObjList items)
      from by simp [encodeMontyObject],
      decode_encoded_tuple items h, decodeObjList_encodeObjList items ih]
    rfl
  | dict pairs hnd hk hv ihk ihv =>
    have hmap := encodeObjPairs_eq_map pairs
    have hpw : (encodeObjPairs pairs).Pairwise (fun p q => p.1.beq q.1 = false) := by
      rw [hmap, List.pairwise_map]
      have h0 := encoded_pairwise_ne (pairs.map Prod.fst) hnd
        (fun x hx => by
          obtain ⟨p, hp, rfl⟩ := List.mem_map.mp hx
          exact ihk p hp)
      rw [List.pairwise_map, List.pairwise_map] at h0
      exact h0
    rw [show encodeMontyObject (.dict pairs) =
        .map (buildMap (encodeObjPairs pairs)) from by simp [encodeMontyObject],
      buildMap_eq_self _ hpw]
    have hget : mapGet (encodeObjPairs pairs) (.atom "__struct__") = Option.none := by
      apply mapGet_none
      intro p hp
      rw [hmap] at hp
      obtain ⟨q, hq, rfl⟩ := List.mem_map.mp hp
      exact encoded_key_not_struct q.1 (hk q hq)
    rw [decodeMontyObject.eq_def]
    simp [hget, decodeObjPairs_encodeObjPairs pairs ihk ihv]
  | set items hnd h ih =>
    have hinner : buildMap ((encodeObjList items).map
        (fun m => (m, mapsetPlaceholder))) =
        (encodeObjList items).map (fun m => (m, mapsetPlaceholder)) := by
      apply buildMap_eq_self
      have h0 := encoded_pairwise_ne items hnd ih
      rw [List.pairwise_map] at h0
      rw [encodeObjList_eq_map, List.pairwise_map, List.pairwise_map]
      simpa using h0
    rw [show encodeMontyObject (.set items) =
        .map (buildMap
          [(.atom "__struct__", .atom "Elixir.MapSet"),
           (.atom "map", .map (buildMap ((encodeObjList items).map
             (fun m => (m, mapsetPlaceholder)))))]) from by
      simp [encodeMontyObject, encodeMapset]]
    rw [buildMap_eq_self _ (by
      simp [List.pairwise_cons, ErlTerm.beq]), hinner]
    have hg1 : mapGet
        [(ErlTerm.atom "__struct__", ErlTerm.atom "Elixir.MapSet"),
         (ErlTerm.atom "map", ErlTerm.map ((encodeObjList items).map
           (fun m => (m, mapsetPlaceholder))))] (.atom "__struct__") =
        some (.atom "Elixir.MapSet") := by simp [mapGet, ErlTerm.beq]
    have hg2 : mapGet
        [(ErlTerm.atom "__struct__", ErlTerm.atom "Elixir.MapSet"),
         (ErlTerm.atom "map", ErlTerm.map ((encodeObjList items).map
           (fun m => (m, mapsetPlaceholder))))] (.atom "map") =
        some (.map ((encodeObjList items).map
          (fun m => (m, mapsetPlaceholder)))) := by simp [mapGet, ErlTerm.beq]
    rw [decodeMontyObject.eq_def]
    simp [hg1, hg2, decodeMapSetInner, decodeSetMembers_encoded items ih]
  | namedTuple tn fns vs hnorm hlen h ih =>
    rw [show encodeMontyObject (.namedTuple tn fns vs) =
        .tuple [.atom "named_tuple", .binary (.str tn),
          .list (encodeNamedTupleFields fns vs)] from by simp [encodeMontyObject]]
    rw [decodeMontyObject.eq_def]
    simp [decodeNamedTuple, nameTermStr, hnorm,
      decodeFieldPairs_encoded fns vs hlen ih]

/-- C1 (amended): decoding the encoding reproduces the value exactly for
every faithful canonical value — one with no opaque/display-only subvalue,
arbitrary-precision integers outside the i64 range, normalization-stable
named-tuple type names with matching field/value counts, duplicate-free
dictionary keys and set members, and no exception, data-class or frozen-set
subvalue; in particular the big integers 2^100 and -2^100 round-trip
exactly, and a frozen set with members 1, 2, 3 decodes back as a (plain)
set with the same three members in order. -/
theorem canonical_value_roundtrip :
    (∀ v : MontyObject, Faithful v →
      decodeMontyObject (encodeMontyObject v) = some v) ∧
    decodeMontyObject (encodeMontyObject (.bigInt (2 ^ 100))) =
      some (.bigInt (2 ^ 100)) ∧
    decodeMontyObject (encodeMontyObject (.bigInt (-(2 ^ 100)))) =
      some (.bigInt (-(2 ^ 100))) ∧
    decodeMontyObject (encodeMontyObject (.frozenSet [.int 1, .int 2, .int 3])) =
      some (.set [.int 1, .int 2, .int 3]) := by
  have hfits : fitsI64 (2 ^ 100) = false := by
    rw [fitsI64]
    have : ¬ ((2 : Int) ^ 100 < 2 ^ 63) := by norm_num
    simp [this]
  have hfitsneg : fitsI64 (-(2 ^ 100)) = false := by
    rw [fitsI64]
    have : ¬ (-(2 ^ 63) ≤ -((2 : Int) ^ 100)) := by norm_num
    simp [this]
  have hset : Faithful (.set [.int 1, .int 2, .int 3]) := by
    refine Faithful.set _ (by simp) ?_
    intro x hx
    simp only [List.mem_cons, List.not_mem_nil, or_false] at hx
    rcases hx with rfl | rfl | rfl
    · exact Faithful.int 1 rfl
    · exact Faithful.int 2 rfl
    · exact Faithful.int 3 rfl
  refine ⟨faithful_roundtrip, ?_, ?_, ?_⟩
  · exact faithful_roundtrip _ (Faithful.bigInt _ hfits)
  · exact faithful_roundtrip _ (Faithful.bigInt _ hfitsneg)
  · rw [show encodeMontyObject (.frozenSet [.int 1, .int 2, .int 3]) =
        encodeMontyObject (.set [.int 1, .int 2, .int 3]) from by
      simp [encodeMontyObject]]
    exact faithful_roundtrip _ hset

/-- Counterexample to C1 as stated: the arbitrary-precision-integer value 0
is of a non-opaque variant, yet decoding its encoding yields the fixed-width
integer 0, which is not structurally equal to it. -/
theorem canonical_value_roundtrip_counterexample :
    decodeMontyObject (encodeMontyObject (MontyObject.bigInt 0)) ≠
      some (MontyObject.bigInt 0) ∧
    decodeMontyObject (encodeMontyObject (MontyObject.bigInt 0)) =
      some (MontyObject.int 0) := by
  have h : decodeMontyObject (encodeMontyObject (MontyObject.bigInt 0)) =
      some (MontyObject.int 0) := by
    rw [show encodeMontyObject (MontyObject.bigInt 0) = .int 0 from by
      simp [encodeMontyObject]]
    rw [show decodeMontyObject (ErlTerm.int 0) =
        some (if fitsI64 0 then MontyObject.int 0 else MontyObject.bigInt 0)
      from by simp [decodeMontyObject]]
    rw [if_pos (show fitsI64 0 = true from rfl)]
  exact ⟨by rw [h]; simp, h⟩

/-- Witness for C1: a faithful nested value — a list holding an integer, a
string and a Point named tuple — round-trips exactly. -/
theorem canonical_value_roundtrip_witness :
    decodeMontyObject (encodeMontyObject (.list [.int 5, .str "hi",
      .namedTuple "Point" ["x", "y"] [.int 1, .int 2]])) =
      some (.list [.int 5, .str "hi",
        .namedTuple "Point" ["x", "y"] [.int 1, .int 2]]) :=
  canonical_value_roundtrip.1 _ (Faithful.list _ (by
    intro x hx
    simp only [List.mem_cons, List.not_mem_nil, or_false] at hx
    rcases hx with rfl | rfl | rfl
    · exact Faithful.int 5 rfl
    · exact Faithful.str "hi"
    · refine Faithful.namedTuple "Point" ["x", "y"] [.int 1, .int 2] rfl rfl ?_
      intro y hy
      simp only [List.mem_cons, List.not_mem_nil, or_false] at hy
      rcases hy with rfl | rfl
      · exact Faithful.int 1 rfl
      · exact Faithful.int 2 rfl))

/-- Witness for C10: the bare integer 7 resumes identically to `{:ok, 7}`. -/
theorem bare_value_outcome_is_success_witness :
    decodeExternalResult (.int 7) =
      (decodeMontyObject (.int 7)).map ExternalResult.ret ∧
    decodeExternalResult (.tuple [.atom "ok", .int 7]) =
      (decodeMontyObject (.int 7)).map ExternalResult.ret :=
  bare_value_outcome_is_success (.int 7)
    (fun h => by
      obtain ⟨tag, e1, rest, heq, -⟩ := h
      exact absurd heq (by simp))
